import Mathlib

/-!
Verification of the JSON transformation engine (`JSONProcessor`) of this
repository against its specification.

The engine operates on in-memory JSON values produced by `JSON.parse`.
We embed that value model as the inductive type `JSValue`.  JSON numbers
are modelled by integers (`Int`): every numeric literal exercised by the
claims is integral, and float-format questions are outside the embedding.
JavaScript strings are modelled by Lean `String` (sequences of Unicode
scalar values); the claims do not exercise surrogate-pair corner cases,
where UTF-16 code-unit indexing and code-point indexing could differ.

Fallible JavaScript code (a `throw` crossing a model boundary) is embedded
with `Except`/`Option`; the built-in `JSON.parse` is not itself part of the
repository, so functions that begin by parsing their text input instead
receive the parse outcome as an explicit argument (`Option JSValue` or
`ParseOutcome`).
-/

set_option maxHeartbeats 1000000

/-- The in-memory JSON value model: the result of a successful `JSON.parse`.
Object fields are kept in insertion order, as JavaScript objects preserve
string-key insertion order and `JSON.parse` keeps the last duplicate. -/
inductive JSValue where
  | null
  | bool (b : Bool)
  | num (n : Int)
  | str (s : String)
  | arr (elems : List JSValue)
  | obj (fields : List (String × JSValue))

/-- Decimal digit test, as the regex class `\d` (exactly `[0-9]`). -/
def isDigitChar (c : Char) : Bool := '0' ≤ c && c ≤ '9'

/-- Value of a string of decimal digits, as `parseInt` computes it on an
all-digit string (leading zeros allowed). -/
def digitsToNat (cs : List Char) : Nat :=
  cs.foldl (fun a c => a * 10 + (c.toNat - 48)) 0

/-- Decimal digit character for a digit value below ten. -/
def digitChar10 (n : Nat) : Char := Char.ofNat (48 + n)

/-- Fuel-driven decimal printing helper; the fuel `n + 1` always suffices
because the argument shrinks by a factor of ten each step. -/
def natDigitsGo : Nat → Nat → List Char → List Char
  | 0, _, acc => acc
  | f + 1, n, acc =>
    if n < 10 then digitChar10 n :: acc
    else natDigitsGo f (n / 10) (digitChar10 (n % 10) :: acc)

/-- Decimal digits of a natural number, most significant first. -/
def natDigits (n : Nat) : List Char := natDigitsGo (n + 1) n []

/-- Decimal text of a natural number, as JavaScript renders array indices
and nonnegative integers. -/
def natToStr (n : Nat) : String := String.mk (natDigits n)

/-- Character list of an integer in JavaScript's integer rendering
(optional minus sign, then decimal digits, never a leading `+`). -/
def intChars (n : Int) : List Char :=
  match n with
  | .ofNat m => natDigits m
  | .negSucc m => '-' :: natDigits (m + 1)

/-- Nonempty all-digits test, as the regex `^\d+$`. -/
def isDigits (s : String) : Bool := !s.data.isEmpty && s.data.all isDigitChar

/-- Strict code-point comparison of character lists, modelling the default
lexicographic string comparison JavaScript's `Array.prototype.sort` uses.
(JavaScript compares UTF-16 code units; on the claim-relevant inputs the
two orders agree.) -/
def strLtChars : List Char → List Char → Bool
  | [], [] => false
  | [], _ :: _ => true
  | _ :: _, [] => false
  | a :: as, b :: bs => if a < b then true else if b < a then false else strLtChars as bs

/-- Insert a string into a list sorted by `strLtChars`. -/
def insertStr (x : String) : List String → List String
  | [] => [x]
  | y :: r => if strLtChars y.data x.data then y :: insertStr x r else x :: y :: r

/-- Insertion sort of strings, modelling `Array.prototype.sort()` on the
(duplicate-free) key arrays the engine sorts. -/
def sortStrs : List String → List String
  | [] => []
  | x :: r => insertStr x (sortStrs r)

/-- Substring test, modelling `String.prototype.includes`. -/
def isInfixChars (needle : List Char) : List Char → Bool
  | [] => needle.isEmpty
  | c :: t => needle.isPrefixOf (c :: t) || isInfixChars needle t

/-- Substring test on strings, modelling `text.includes(sub)`. -/
def jsIncludes (text sub : String) : Bool := isInfixChars sub.data text.data

mutual

/-- Size measure on JSON values, used to certify termination and fuel
sufficiency of the recursive engine algorithms. -/
def jsize : JSValue → Nat
  | .null => 1
  | .bool _ => 1
  | .num _ => 1
  | .str _ => 1
  | .arr xs => 1 + jsizeL xs
  | .obj fs => 1 + jsizeF fs

/-- Total size of a list of JSON values. -/
def jsizeL : List JSValue → Nat
  | [] => 0
  | x :: r => jsize x + jsizeL r

/-- Total size of the values of an object's field list. -/
def jsizeF : List (String × JSValue) → Nat
  | [] => 0
  | (_, v) :: r => jsize v + jsizeF r

end

theorem jsize_pos : ∀ v : JSValue, 1 ≤ jsize v
  | .null => le_refl _
  | .bool _ => le_refl _
  | .num _ => le_refl _
  | .str _ => le_refl _
  | .arr _ => by simp [jsize]
  | .obj _ => by simp [jsize]

/-- First-match field lookup in an object's field list, modelling property
access `o[key]` on a parsed JavaScript object. -/
def lookupField : List (String × JSValue) → String → Option JSValue
  | [], _ => none
  | (k, v) :: rest, key => if k = key then some v else lookupField rest key

theorem lookupField_size : ∀ (fs : List (String × JSValue)) (k : String) (v : JSValue),
    lookupField fs k = some v → jsize v ≤ jsizeF fs
  | [], _, _, h => by simp [lookupField] at h
  | (k2, v2) :: rest, k, v, h => by
    simp only [lookupField] at h
    split at h
    · cases h
      simp [jsizeF]
    · have h2 := lookupField_size rest k v h
      simp only [jsizeF]
      omega

theorem getElem?_size : ∀ (xs : List JSValue) (i : Nat) (e : JSValue),
    xs.get? i = some e → jsize e ≤ jsizeL xs
  | [], i, e, h => by simp at h
  | x :: r, 0, e, h => by
    rw [List.get?_cons_zero] at h
    cases h
    simp [jsizeL]
  | x :: r, i + 1, e, h => by
    rw [List.get?_cons_succ] at h
    have h2 := getElem?_size r i e h
    simp only [jsizeL]
    omega

/-- Canonical array-index form of a property key: the decimal rendering of
a natural number, with no leading zero.  JavaScript array and string index
properties answer exactly to keys of this form. -/
def canonIndex (k : String) : Option Nat :=
  match k.data with
  | [] => none
  | [c] => if isDigitChar c then some (digitsToNat [c]) else none
  | c :: rest =>
    if c = '0' then none
    else if isDigitChar c && rest.all isDigitChar then some (digitsToNat (c :: rest))
    else none

/-- Property access `v[key]` on a parsed JSON value, for the places where
the engine reads a property of an arbitrary value: object fields by name;
array elements by canonical index and the array `length` property; string
characters by canonical index and the string `length` property.  Access on
`null` models the short-circuit of the optional chaining `v?.[key]` the
diff engine uses (plain access on `null` never happens: the traversal code
tests for `null` first).  Method-valued inherited properties (for example
`toString`) are not JSON values and are not modelled. -/
def jsMember (v : JSValue) (key : String) : Option JSValue :=
  match v with
  | .obj fs => lookupField fs key
  | .arr xs =>
    if key = "length" then some (.num xs.length)
    else
      match canonIndex key with
      | some i => xs.get? i
      | none => none
  | .str s =>
    if key = "length" then some (.num s.data.length)
    else
      match canonIndex key with
      | some i => (s.data.get? i).map (fun c => .str (String.mk [c]))
      | none => none
  | _ => none

theorem jsMember_size_le (v : JSValue) (k : String) (w : JSValue)
    (h : jsMember v k = some w) : jsize w ≤ jsize v := by
  cases v with
  | obj fs =>
    simp only [jsMember] at h
    have := lookupField_size fs k w h
    simp only [jsize]
    omega
  | arr xs =>
    simp only [jsMember] at h
    split at h
    · cases h
      simp [jsize]
    · split at h
      · have := getElem?_size xs _ w h
        simp only [jsize]
        omega
      · cases h
  | str s =>
    simp only [jsMember] at h
    split at h
    · cases h
      simp [jsize]
    · split at h
      · rcases Option.map_eq_some'.mp h with ⟨c, hc, rfl⟩
        simp [jsize]
      · cases h
  | null => simp [jsMember] at h
  | bool b => simp [jsMember] at h
  | num n => simp [jsMember] at h

/-- Composite test: `true` exactly for arrays and objects. -/
def isComposite : JSValue → Bool
  | .arr _ => true
  | .obj _ => true
  | _ => false

theorem jsMember_size_lt_of_composite (v : JSValue) (k : String) (w : JSValue)
    (h : jsMember v k = some w) (hw : isComposite w = true) : jsize w < jsize v := by
  cases v with
  | obj fs =>
    simp only [jsMember] at h
    have := lookupField_size fs k w h
    simp only [jsize]
    omega
  | arr xs =>
    simp only [jsMember] at h
    split at h
    · cases h
      simp [isComposite] at hw
    · split at h
      · have := getElem?_size xs _ w h
        simp only [jsize]
        omega
      · cases h
  | str s =>
    simp only [jsMember] at h
    split at h
    · cases h
      simp [isComposite] at hw
    · split at h
      · rcases Option.map_eq_some'.mp h with ⟨c, hc, rfl⟩
        simp [isComposite] at hw
      · cases h
  | null => simp [jsMember] at h
  | bool b => simp [jsMember] at h
  | num n => simp [jsMember] at h

/-- Keyword lookups (`schema.type`, `schema.properties`, ...) succeed only
on objects: the keyword names are neither digit strings nor `length`. -/
theorem jsMember_keyword_obj (v : JSValue) (k : String) (w : JSValue)
    (h : jsMember v k = some w) (hk1 : k ≠ "length") (hk2 : canonIndex k = none) :
    ∃ fs, v = .obj fs ∧ lookupField fs k = some w := by
  cases v with
  | obj fs => exact ⟨fs, rfl, h⟩
  | arr xs =>
    simp only [jsMember, if_neg hk1, hk2] at h
    cases h
  | str s =>
    simp only [jsMember, if_neg hk1, hk2] at h
    cases h
  | null => simp [jsMember] at h
  | bool b => simp [jsMember] at h
  | num n => simp [jsMember] at h

/-- Split a character list at every dot, keeping empty pieces, modelling
`path.split('.')` (which yields `[""]` on the empty string). -/
def splitDotChars : List Char → List (List Char)
  | [] => [[]]
  | c :: cs =>
    match splitDotChars cs with
    | [] => [[]]
    | piece :: rest => if c = '.' then [] :: piece :: rest else (c :: piece) :: rest

/-- Split a path string on dots, modelling `path.split('.')`. -/
def splitDot (s : String) : List String := (splitDotChars s.data).map String.mk

/-- Step loop of `getValueAtPath`: walk the remaining keys from the current
value (`none` models JavaScript's `undefined`).  Before each key the source
returns `undefined` when the current value is `null` or `undefined`; an
all-digits key requires the current value to be an array with the index in
bounds; any other key is a property lookup. -/
def pathWalk : Option JSValue → List String → Option JSValue
  | cur, [] => cur
  | none, _ :: _ => none
  | some c, key :: keys =>
    match c with
    | .null => none
    | _ =>
      if isDigits key then
        match c with
        | .arr xs =>
          match xs.get? (digitsToNat key.data) with
          | some e => pathWalk (some e) keys
          | none => none
        | _ => none
      else pathWalk (jsMember c key) keys

/-- The engine's `getValueAtPath(obj, path)`: empty path returns the object
itself, otherwise walk the dot-separated keys. -/
def getValueAtPath (obj : JSValue) (path : String) : Option JSValue :=
  if path = "" then some obj else pathWalk (some obj) (splitDot path)

/-- Scan for the regex `^(.+?)\[(\d+|\*)\]$` of `evaluateJSONPath`: find the
leftmost split `p ++ "[" ++ w ++ "]"` of the whole query where `p` is a
nonempty group the dot-any class can match (so `p` holds no line
terminator) and `w` is a nonempty digit run or `*` ending at the final
character.  `acc` is the reversed prefix scanned so far. -/
def arrayMatchGo (acc : List Char) : List Char → Option (List Char × List Char)
  | [] => none
  | c :: t =>
    if c = '\n' ∨ c = '\r' then none
    else
      if c = '[' ∧ acc ≠ [] ∧ t.getLast? = some ']' ∧ t.dropLast ≠ [] ∧
          (t.dropLast.all isDigitChar ∨ t.dropLast = ['*']) then
        some (acc.reverse, t.dropLast)
      else arrayMatchGo (c :: acc) t

/-- The bracket-suffix match `cleanQuery.match(/^(.+?)\[(\d+|\*)\]$/)`,
returning the path group and the index group on success. -/
def arrayMatch (s : String) : Option (String × String) :=
  (arrayMatchGo [] s.data).map (fun pw => (String.mk pw.1, String.mk pw.2))

/-- Strip of the query prefix by `query.replace(/^\$?\./, '')`: the regex
requires a literal dot, optionally preceded by `$`; a lone `$` (no dot) is
left in place. -/
def stripDollarDot (s : String) : String :=
  match s.data with
  | '$' :: '.' :: rest => String.mk rest
  | '.' :: rest => String.mk rest
  | _ => s

/-- The engine's `evaluateJSONPath`: empty cleaned query yields the whole
document; a trailing-bracket match over an array resolves `*` to all
elements and an in-bounds index to a singleton; every other case --
including an out-of-bounds index -- falls through to plain dot traversal of
the entire cleaned query.  Elements of the result are `Option JSValue`,
with `none` modelling `undefined`. -/
def evaluateJSONPath (obj : JSValue) (query : String) : List (Option JSValue) :=
  let cleanQuery := stripDollarDot query
  if cleanQuery = "" then [some obj]
  else
    match arrayMatch cleanQuery with
    | some (path, index) =>
      match getValueAtPath obj path with
      | some (.arr parent) =>
        if index = "*" then parent.map some
        else
          let idx := digitsToNat index.data
          if h : idx < parent.length then [some (parent.get ⟨idx, h⟩)]
          else [pathWalk (some obj) (splitDot cleanQuery)]
      | _ => [pathWalk (some obj) (splitDot cleanQuery)]
    | none => [pathWalk (some obj) (splitDot cleanQuery)]

/-- The engine's `queryJSON`: a failed parse throws a fixed `FormatError`;
otherwise the evaluator runs on the parsed document. -/
def queryJSON (parsed : Option JSValue) (query : String) : Except String (List (Option JSValue)) :=
  match parsed with
  | none => .error "Invalid JSON format"
  | some obj => .ok (evaluateJSONPath obj query)

example : evaluateJSONPath (.obj [("users", .arr [.num 1])]) "users[5]" = [none] := by rfl
example : evaluateJSONPath (.obj [("users", .arr [.num 1])]) "users[0]" = [some (.num 1)] := by rfl
example : evaluateJSONPath (.obj [("users", .arr [.num 1, .num 2])]) "users" =
    [some (.arr [.num 1, .num 2])] := by rfl
example : evaluateJSONPath (.obj [("users", .arr [.num 1, .num 2])]) "$.users[ofstar]" =
    [none] := by rfl
example : evaluateJSONPath (.obj [("users", .arr [.num 1, .num 2])]) "users[*]" =
    [some (.num 1), some (.num 2)] := by rfl
example : evaluateJSONPath (.obj [("a", .num 7)]) "" = [some (.obj [("a", .num 7)])] := by rfl
example : evaluateJSONPath (.obj [("a", .num 7)]) "$." = [some (.obj [("a", .num 7)])] := by rfl
example : evaluateJSONPath (.obj [("a", .num 7)]) "$" = [none] := by rfl
example : evaluateJSONPath (.obj [("a", .obj [("b", .num 3)])]) "a.b" = [some (.num 3)] := by rfl

/-- Helper: outside the in-bounds and wildcard cases, a bracket-matched
query falls through to plain dot traversal of the entire cleaned query. -/
theorem evaluateJSONPath_fallthrough (doc : JSValue) (q path index : String)
    (xs : List JSValue)
    (hne : stripDollarDot q ≠ "")
    (hm : arrayMatch (stripDollarDot q) = some (path, index))
    (hstar : index ≠ "*")
    (hp : getValueAtPath doc path = some (.arr xs))
    (hb : xs.length ≤ digitsToNat index.data) :
    evaluateJSONPath doc q = [pathWalk (some doc) (splitDot (stripDollarDot q))] := by
  unfold evaluateJSONPath
  rw [if_neg hne, hm]
  dsimp only
  rw [hp]
  dsimp only
  rw [if_neg hstar, dif_neg (by omega)]

/-- C1 (amended): for a query of the form `path[N]` with `N` a decimal
index, when the dot traversal of `path` resolves to an array and `N` is out
of bounds, `queryJSON` does not return an empty sequence: the evaluator
falls through to plain dot traversal of the whole query text and returns
that single (generally absent) result. -/
theorem queryJSON_out_of_bounds_falls_through (doc : JSValue) (q path index : String)
    (xs : List JSValue)
    (hne : stripDollarDot q ≠ "")
    (hm : arrayMatch (stripDollarDot q) = some (path, index))
    (hstar : index ≠ "*")
    (hp : getValueAtPath doc path = some (.arr xs))
    (hb : xs.length ≤ digitsToNat index.data) :
    queryJSON (some doc) q = .ok [pathWalk (some doc) (splitDot (stripDollarDot q))] := by
  unfold queryJSON
  dsimp only
  rw [evaluateJSONPath_fallthrough doc q path index xs hne hm hstar hp hb]

/-- Witness for C1 (amended): `users[5]` on `{"users":[1]}` yields the
one-element sequence holding the absent marker. -/
theorem queryJSON_out_of_bounds_falls_through_witness :
    queryJSON (some (JSValue.obj [("users", .arr [.num 1])])) "users[5]" =
      .ok [pathWalk (some (JSValue.obj [("users", .arr [.num 1])]))
        (splitDot (stripDollarDot "users[5]"))] := by
  exact queryJSON_out_of_bounds_falls_through (JSValue.obj [("users", .arr [.num 1])])
    "users[5]" "users" "5" [.num 1] (by decide) rfl (by decide) rfl (by decide)

/-- Counterexample to C1 as stated: on `{"users":[1]}` the out-of-bounds
query `users[5]` does not return the empty sequence (it returns a
one-element sequence holding the absent marker). -/
theorem queryJSON_out_of_bounds_not_empty :
    queryJSON (some (JSValue.obj [("users", .arr [.num 1])])) "users[5]" ≠ .ok [] :=
  fun h => List.cons_ne_nil none [] (Except.ok.inj h)

/-- C5 (amended): the queries `""`, `"."` and `"$."` resolve to the whole
document as a single-element result, but a lone `"$"` is not stripped by
the prefix regex (which requires a literal dot) and instead falls through
to a dot traversal looking up the literal property `$`. -/
theorem queryJSON_root_queries (doc : JSValue) :
    queryJSON (some doc) "" = .ok [some doc] ∧
    queryJSON (some doc) "." = .ok [some doc] ∧
    queryJSON (some doc) "$." = .ok [some doc] ∧
    queryJSON (some doc) "$" = .ok [pathWalk (some doc) (splitDot "$")] :=
  ⟨rfl, rfl, rfl, rfl⟩

/-- Counterexample to C5 as stated: on the document `{}` the query `"$"`
does not return the whole document. -/
theorem queryJSON_dollar_not_whole_doc :
    queryJSON (some (JSValue.obj [])) "$" ≠ .ok [some (JSValue.obj [])] :=
  fun h => Option.noConfusion (List.cons.inj (Except.ok.inj h)).1

/-- Lowercase hexadecimal digit character for a value below sixteen. -/
def hexChar (n : Nat) : Char := if n < 10 then Char.ofNat (48 + n) else Char.ofNat (87 + n)

/-- Escape of one character inside a JSON string literal, exactly as
`JSON.stringify` renders it: the two mandatory escapes, the five short
control escapes, `\u00xx` for the remaining control characters, and every
other character unchanged. -/
def escapeChar (c : Char) : List Char :=
  if c = '"' then ['\\', '"']
  else if c = '\\' then ['\\', '\\']
  else if c = '\n' then ['\\', 'n']
  else if c = '\r' then ['\\', 'r']
  else if c = '\t' then ['\\', 't']
  else if c = '\x08' then ['\\', 'b']
  else if c = '\x0c' then ['\\', 'f']
  else if c.toNat < 32 then ['\\', 'u', '0', '0', hexChar (c.toNat / 16), hexChar (c.toNat % 16)]
  else [c]

/-- Escape of a character list inside a JSON string literal. -/
def escapeChars : List Char → List Char
  | [] => []
  | c :: r => escapeChar c ++ escapeChars r

/-- A double-quoted JSON string literal for `s`. -/
def quoteChars (s : String) : List Char := '"' :: (escapeChars s.data ++ ['"'])

/-- Join pieces with a separator, as `Array.prototype.join`. -/
def joinSep (sep : List Char) : List (List Char) → List Char
  | [] => []
  | [x] => x
  | x :: y :: r => x ++ sep ++ joinSep sep (y :: r)

mutual

/-- Serialization of a value, modelling `JSON.stringify(v, null, gap)` at
current indentation `ind`: with an empty gap the compact form (no
whitespace); with a nonempty gap the pretty form, `",\n"`-separated items
each prefixed by one more gap of indentation, closing bracket at the
current indentation.  Numbers are printed in integer form (the embedding's
number model). -/
def printV (gap ind : List Char) : JSValue → List Char
  | .null => "null".data
  | .bool b => if b then "true".data else "false".data
  | .num n => intChars n
  | .str s => quoteChars s
  | .arr xs =>
    match xs with
    | [] => "[]".data
    | _ :: _ =>
      if gap.isEmpty then '[' :: (joinSep [','] (printL gap ind xs) ++ [']'])
      else
        '[' :: '\n' ::
          (joinSep [',', '\n'] ((printL gap (ind ++ gap) xs).map (fun piece => ind ++ gap ++ piece)) ++
            ('\n' :: ind ++ [']']))
  | .obj fs =>
    match fs with
    | [] => "\x7b\x7d".data
    | _ :: _ =>
      if gap.isEmpty then '\x7b' :: (joinSep [','] (printF gap ind fs) ++ ['\x7d'])
      else
        '\x7b' :: '\n' ::
          (joinSep [',', '\n'] ((printF gap (ind ++ gap) fs).map (fun piece => ind ++ gap ++ piece)) ++
            ('\n' :: ind ++ ['\x7d']))

/-- Serialized pieces of the elements of an array. -/
def printL (gap ind : List Char) : List JSValue → List (List Char)
  | [] => []
  | x :: r => printV gap ind x :: printL gap ind r

/-- Serialized pieces of the members of an object (`"key": value`, with the
space after the colon only in pretty mode). -/
def printF (gap ind : List Char) : List (String × JSValue) → List (List Char)
  | [] => []
  | (k, v) :: r =>
    (quoteChars k ++ ((if gap.isEmpty then [':'] else [':', ' ']) ++ printV gap ind v)) :: printF gap ind r

end

/-- Compact serialization `JSON.stringify(v)`. -/
def jsStringify (v : JSValue) : String := String.mk (printV [] [] v)

/-- Two-space pretty serialization `JSON.stringify(v, null, 2)`. -/
def jsStringify2 (v : JSValue) : String := String.mk (printV [' ', ' '] [] v)

/-- The gap `JSON.stringify` derives from a numeric `space` argument: that
many spaces, capped at ten. -/
def gapChars (indent : Nat) : List Char := List.replicate (min indent 10) ' '

example : jsStringify (.obj [("a", .num 1), ("b", .arr [.null, .str "x"])]) =
    "\x7b\"a\":1,\"b\":[null,\"x\"]\x7d" := by rfl
example : jsStringify2 (.obj [("a", .num 1), ("b", .arr [.num (-2)])]) =
    "\x7b\n  \"a\": 1,\n  \"b\": [\n    -2\n  ]\n\x7d" := by rfl
example : jsStringify (.str "a\"b\n\x01") = "\"a\\\"b\\n\\u0001\"" := by rfl

/-- Insert a field into a list sorted by key. -/
def insertField (x : String × JSValue) : List (String × JSValue) → List (String × JSValue)
  | [] => [x]
  | y :: r => if strLtChars y.1.data x.1.data then y :: insertField x r else x :: y :: r

/-- Sort an object's fields by key, as `Object.keys(obj).sort()` orders the
keys that the rebuild loop then inserts. -/
def sortFields : List (String × JSValue) → List (String × JSValue)
  | [] => []
  | x :: r => insertField x (sortFields r)

mutual

/-- The engine's recursive `sortKeys`, with the `this` binding made
explicit.  The class method reads `this.sortKeys` in two places; when it is
itself invoked through `obj.map(this.sortKeys)` the function reference is
unbound, so inside that call `this` is `undefined` (class bodies are strict
mode) and reading `this.sortKeys` throws a `TypeError` -- modelled by
`Except.error`.  With `bound = true`: arrays map their elements through the
unbound reference; nonempty objects rebuild their fields over sorted keys
through arrow functions that keep `this` bound (rebuilding over sorted keys
with unique keys equals sorting the recursively rebuilt field list).  With
`bound = false`: an array throws when `this.sortKeys` is read before the
map; a nonempty object throws at its first `forEach` iteration; an empty
object runs no iteration and returns; scalars return themselves. -/
def sortKeysV (bound : Bool) : JSValue → Except Unit JSValue
  | .null => .ok .null
  | .bool b => .ok (.bool b)
  | .num n => .ok (.num n)
  | .str s => .ok (.str s)
  | .arr xs => if bound then (sortKeysL xs).map .arr else .error ()
  | .obj fs =>
    match fs with
    | [] => .ok (.obj [])
    | _ :: _ =>
      if bound then (sortKeysF fs).map (fun gs => .obj (sortFields gs)) else .error ()

/-- Elements of an array under `obj.map(this.sortKeys)`: each callback
invocation has `this` unbound. -/
def sortKeysL : List JSValue → Except Unit (List JSValue)
  | [] => .ok []
  | x :: r => do
    let a ← sortKeysV false x
    let b ← sortKeysL r
    .ok (a :: b)

/-- Values of an object's fields under the arrow-function rebuild: `this`
stays bound. -/
def sortKeysF : List (String × JSValue) → Except Unit (List (String × JSValue))
  | [] => .ok []
  | (k, v) :: r => do
    let a ← sortKeysV true v
    let b ← sortKeysF r
    .ok ((k, a) :: b)

end

/-- The engine's options record. -/
structure JSONProcessingOptions where
  indent : Nat
  sortKeys : Bool
  removeWhitespace : Bool

/-- The engine's `format`: a failed parse returns the input unchanged (the
parse outcome is the explicit `parsed` argument); a `TypeError` escaping
`sortKeys` is caught by the same `try`/`catch` and also returns the input
unchanged; otherwise serialize with `options.indent` spaces of gap. -/
def format (text : String) (parsed : Option JSValue) (options : JSONProcessingOptions) : String :=
  match parsed with
  | none => text
  | some v =>
    match (if options.sortKeys then sortKeysV true v else .ok v) with
    | .error _ => text
    | .ok sorted => String.mk (printV (gapChars options.indent) [] sorted)

/-- The engine's `minify`: parse failure returns the input unchanged,
otherwise the compact serialization. -/
def minify (text : String) (parsed : Option JSValue) : String :=
  match parsed with
  | none => text
  | some v => jsStringify v

example : format "x" (some (.obj [("b", .num 1), ("a", .num 2)]))
    { indent := 2, sortKeys := true, removeWhitespace := false } =
    "\x7b\n  \"a\": 2,\n  \"b\": 1\n\x7d" := by rfl
example : sortKeysV true (.arr [.obj [("b", .num 1), ("a", .num 2)]]) = .error () := by rfl
example : sortKeysV true (.arr [.num 1, .arr [.num 2]]) = .error () := by rfl
example : sortKeysV true (.arr [.num 1, .obj []]) = .ok (.arr [.num 1, .obj []]) := by rfl

/-- Outcome of the built-in `JSON.parse` on an input text: a parsed value,
or a thrown `SyntaxError` carrying a message. -/
inductive ParseOutcome where
  | ok (v : JSValue)
  | err (message : String)

/-- The engine's validation result record. -/
structure JSONValidationResult where
  valid : Bool
  error : Option String := none
  line : Option Nat := none
  column : Option Nat := none
  deriving DecidableEq

/-- Split a character list at every newline, keeping empty pieces,
modelling `text.split('\n')`. -/
def splitNlChars : List Char → List (List Char)
  | [] => [[]]
  | c :: cs =>
    match splitNlChars cs with
    | [] => [[]]
    | piece :: rest => if c = '\n' then [] :: piece :: rest else (c :: piece) :: rest

/-- Search for the regex `/position (\d+)/` in a parser message: the first
offset where the literal `position ` is followed by at least one decimal
digit; the captured group is the maximal digit run, read as a number. -/
def findPositionNum : List Char → Option Nat
  | [] => none
  | c :: t =>
    if "position ".data.isPrefixOf (c :: t) &&
        (match (c :: t).drop 9 with | d :: _ => isDigitChar d | [] => false) then
      some (digitsToNat (((c :: t).drop 9).takeWhile isDigitChar))
    else findPositionNum t

/-- The engine's `validate`: success gives `{valid: true}`; on failure the
message is searched for a character offset, and when found, the text up to
the offset is split on newlines to derive the 1-based line (number of
pieces) and column (length of the last piece, plus one). -/
def validate (text : String) (outcome : ParseOutcome) : JSONValidationResult :=
  match outcome with
  | .ok _ => { valid := true }
  | .err message =>
    match findPositionNum message.data with
    | some position =>
      let lines := splitNlChars (text.data.take position)
      { valid := false, error := some message,
        line := some lines.length,
        column := some ((lines.getLastD []).length + 1) }
    | none => { valid := false, error := some message }

/-- Componentwise sum of `(objects, arrays, primitives)` counters. -/
def addStats (a b : Nat × Nat × Nat) : Nat × Nat × Nat :=
  (a.1 + b.1, a.2.1 + b.2.1, a.2.2 + b.2.2)

mutual

/-- The engine's `getStats` traversal: each array increments the array
counter and visits its elements, each object increments the object counter
and visits its values, everything else is one primitive. -/
def getStatsV : JSValue → Nat × Nat × Nat
  | .null => (0, 0, 1)
  | .bool _ => (0, 0, 1)
  | .num _ => (0, 0, 1)
  | .str _ => (0, 0, 1)
  | .arr xs => addStats (0, 1, 0) (getStatsL xs)
  | .obj fs => addStats (1, 0, 0) (getStatsF fs)

/-- Counters accumulated over the elements of an array. -/
def getStatsL : List JSValue → Nat × Nat × Nat
  | [] => (0, 0, 0)
  | x :: r => addStats (getStatsV x) (getStatsL r)

/-- Counters accumulated over the values of an object's fields. -/
def getStatsF : List (String × JSValue) → Nat × Nat × Nat
  | [] => (0, 0, 0)
  | (_, v) :: r => addStats (getStatsV v) (getStatsF r)

end

/-- The engine's statistics record. -/
structure JSONStats where
  size : Nat
  formattedSize : Nat
  objects : Nat
  arrays : Nat
  primitives : Nat
  deriving DecidableEq

/-- The engine's combined processing result. -/
structure JSONProcessingResult where
  formatted : String
  minified : String
  validation : JSONValidationResult
  stats : JSONStats
  deriving DecidableEq

/-- The engine's `process`.  The source tests `!validation.valid`;
`validate` returns `valid := true` exactly when the parse outcome is
successful, so the test is the match on the outcome.  On an invalid input
everything echoes the input text with zeroed counters; on a valid input the
formatted text is the minified form when `removeWhitespace` is set and the
indented `format` otherwise, and the stats pair the original and formatted
lengths with the traversal counters. -/
def process (text : String) (outcome : ParseOutcome) (options : JSONProcessingOptions) :
    JSONProcessingResult :=
  let validation := validate text outcome
  match outcome with
  | .err _ =>
    { formatted := text, minified := text, validation := validation,
      stats := { size := text.length, formattedSize := text.length,
                 objects := 0, arrays := 0, primitives := 0 } }
  | .ok parsed =>
    let formatted :=
      if options.removeWhitespace then minify text (some parsed)
      else format text (some parsed) options
    let minified := minify text (some parsed)
    let s := getStatsV parsed
    { formatted := formatted, minified := minified, validation := validation,
      stats := { size := text.length, formattedSize := formatted.length,
                 objects := s.1, arrays := s.2.1, primitives := s.2.2 } }

example : getStatsV (.obj [("a", .arr [.num 1, .num 2, .obj [("b", .num 3)]])]) = (2, 1, 3) := by rfl

theorem splitNlChars_ne_nil : ∀ l : List Char, splitNlChars l ≠ []
  | [] => by simp [splitNlChars]
  | c :: cs => by
    simp only [splitNlChars]
    cases h : splitNlChars cs with
    | nil => simp
    | cons p r =>
      dsimp only
      split <;> simp

theorem splitNlChars_length : ∀ l : List Char, (splitNlChars l).length = l.count '\n' + 1
  | [] => by simp [splitNlChars]
  | c :: cs => by
    have ih := splitNlChars_length cs
    simp only [splitNlChars]
    cases h : splitNlChars cs with
    | nil => exact absurd h (splitNlChars_ne_nil cs)
    | cons p r =>
      rw [h] at ih
      dsimp only
      by_cases hc : c = '\n'
      · subst hc
        simp only [if_pos rfl, List.count_cons, List.length_cons] at *
        simp
        omega
      · rw [if_neg hc]
        simp only [List.count_cons, List.length_cons] at *
        simp [hc] at *
        omega

theorem splitNlChars_no_nl : ∀ l : List Char, '\n' ∉ l → splitNlChars l = [l]
  | [], _ => rfl
  | c :: cs, h => by
    have h1 : '\n' ∉ cs := fun hm => h (List.mem_cons_of_mem c hm)
    have h2 : c ≠ '\n' := fun hc => h (hc ▸ List.mem_cons_self c cs)
    simp only [splitNlChars, splitNlChars_no_nl cs h1]
    rw [if_neg (fun hh => h2 hh)]

theorem takeWhile_append_all (p : Char → Bool) : ∀ (xs ys : List Char),
    (∀ c ∈ xs, p c = true) → (xs ++ ys).takeWhile p = xs ++ ys.takeWhile p
  | [], ys, _ => rfl
  | x :: xs, ys, h => by
    have hx : p x = true := h x (List.mem_cons_self x xs)
    simp only [List.cons_append, List.takeWhile_cons, hx]
    simp only [if_true]
    rw [takeWhile_append_all p xs ys (fun c hc => h c (List.mem_cons_of_mem x hc))]

theorem takeWhile_append_stop (p : Char → Bool) : ∀ (xs ys : List Char),
    (∃ c ∈ xs, p c = false) → (xs ++ ys).takeWhile p = xs.takeWhile p
  | [], ys, h => by simp at h
  | x :: xs, ys, h => by
    by_cases hx : p x = true
    · simp only [List.cons_append, List.takeWhile_cons, hx]
      have : ∃ c ∈ xs, p c = false := by
        rcases h with ⟨c, hc, hpc⟩
        cases List.mem_cons.mp hc with
        | inl he => exact absurd (he ▸ hpc) (by simp [hx])
        | inr hm => exact ⟨c, hm, hpc⟩
      rw [takeWhile_append_stop p xs ys this]
    · have hx2 : p x = false := by
        cases hpx : p x
        · rfl
        · exact absurd hpx hx
      simp only [List.cons_append, List.takeWhile_cons, hx2]
      simp

theorem count_pos_of_mem : ∀ (l : List Char), '\n' ∈ l → 0 < l.count '\n' := by
  intro l h
  exact List.count_pos_iff.mpr h

theorem splitNlChars_getLast : ∀ l : List Char,
    (splitNlChars l).getLastD [] = (l.reverse.takeWhile (fun c => c ≠ '\n')).reverse
  | [] => rfl
  | c :: cs => by
    have ih := splitNlChars_getLast cs
    by_cases hnl : '\n' ∈ cs
    · obtain ⟨p, r, hpr⟩ : ∃ p r, splitNlChars cs = p :: r := by
        cases h : splitNlChars cs with
        | nil => exact absurd h (splitNlChars_ne_nil cs)
        | cons p r => exact ⟨p, r, rfl⟩
      have hr : r ≠ [] := by
        have hl := splitNlChars_length cs
        rw [hpr] at hl
        have hcount := count_pos_of_mem cs hnl
        simp only [List.length_cons] at hl
        intro hre
        subst hre
        simp at hl
        omega
      obtain ⟨q, r2, hqr⟩ : ∃ q r2, r = q :: r2 := by
        cases r with
        | nil => exact absurd rfl hr
        | cons q r2 => exact ⟨q, r2, rfl⟩
      subst hqr
      have hrhs : ((c :: cs).reverse.takeWhile (fun c => c ≠ '\n')).reverse =
          (cs.reverse.takeWhile (fun c => c ≠ '\n')).reverse := by
        rw [List.reverse_cons, takeWhile_append_stop _ _ _
          ⟨'\n', List.mem_reverse.mpr hnl, by simp⟩]
      rw [hrhs, ← ih, hpr]
      simp only [splitNlChars, hpr]
      split <;> simp [List.getLastD_cons]
    · have hcs : splitNlChars cs = [cs] := splitNlChars_no_nl cs hnl
      have hall : ∀ x ∈ cs.reverse, (fun c => decide (c ≠ '\n')) x = true := by
        intro x hx
        simp only [decide_eq_true_eq]
        intro he
        exact hnl (he ▸ List.mem_reverse.mp hx)
      simp only [splitNlChars, hcs]
      by_cases hc : c = '\n'
      · subst hc
        rw [if_pos rfl]
        simp only [List.getLastD_cons, List.reverse_cons]
        rw [takeWhile_append_all _ _ _ hall]
        simp
      · rw [if_neg (fun hh => hc hh)]
        simp only [List.getLastD_cons, List.reverse_cons]
        rw [takeWhile_append_all _ _ _ hall]
        simp [hc]

/-- C6: on an input that fails to parse, `process` echoes the input text as
both the formatted and the minified output, carries the failed validation,
and zeroes every counter except the two sizes, which both equal the input
length. -/
theorem process_invalid_input (text message : String) (options : JSONProcessingOptions) :
    process text (.err message) options =
      { formatted := text, minified := text,
        validation := validate text (.err message),
        stats := { size := text.length, formattedSize := text.length,
                   objects := 0, arrays := 0, primitives := 0 } } ∧
    (validate text (.err message)).valid = false := by
  constructor
  · rfl
  · unfold validate
    dsimp only
    cases findPositionNum message.data <;> rfl

/-- C7: `validate` is a total function of the text and the parse outcome
(the embedding of "never throws; always returns a result").  On a failed
parse whose message carries a recoverable character offset, the reported
line is one more than the number of newline characters in the text before
the offset and the reported column is one more than the number of
characters after the last such newline, both 1-based; without a
recoverable offset, line and column are omitted; on success the result is
valid with no error fields. -/
theorem validate_line_column (text message : String) :
    (∀ position, findPositionNum message.data = some position →
      validate text (.err message) =
        { valid := false, error := some message,
          line := some ((text.data.take position).count '\n' + 1),
          column := some
            (((text.data.take position).reverse.takeWhile (fun c => c ≠ '\n')).length + 1) }) ∧
    (findPositionNum message.data = none →
      validate text (.err message) = { valid := false, error := some message }) ∧
    (∀ v, validate text (.ok v) = { valid := true }) := by
  refine ⟨?_, ?_, ?_⟩
  · intro position hpos
    unfold validate
    dsimp only
    rw [hpos]
    dsimp only
    rw [splitNlChars_length, splitNlChars_getLast, List.length_reverse]
  · intro hpos
    unfold validate
    dsimp only
    rw [hpos]
  · intro v
    rfl

/-- Witness for C7: the message reports offset 5 in the text `ab(nl)cd:`;
the prefix of length 5 holds one newline and two characters after it, so
line 2, column 3. -/
theorem validate_line_column_witness :
    validate "ab\ncd:" (.err "Unexpected token : in JSON at position 5") =
      { valid := false, error := some "Unexpected token : in JSON at position 5",
        line := some 2, column := some 3 } := by
  have h := (validate_line_column "ab\ncd:" "Unexpected token : in JSON at position 5").1 5 (by rfl)
  exact h.trans (by decide)

/-- C2 (code bug): `sortKeys` passes itself unbound to `Array.prototype.map`
(`obj.map(this.sortKeys)`), so inside an element call `this` is `undefined`
and reading `this.sortKeys` throws a `TypeError` as soon as the element is
an array or a nonempty object.  `format` catches the error and returns the
input text unchanged, so for `[{"b":1,"a":2}]` with `sortKeys: true` the
output keeps `b` before `a` instead of the sorted-keys serialization the
spec describes. -/
theorem format_sortKeys_nested_bug :
    sortKeysV false (JSValue.obj [("b", .num 1), ("a", .num 2)]) = .error () ∧
    sortKeysV true (JSValue.arr [.obj [("b", .num 1), ("a", .num 2)]]) = .error () ∧
    format "[\x7b\"b\":1,\"a\":2\x7d]"
      (some (JSValue.arr [.obj [("b", .num 1), ("a", .num 2)]]))
      { indent := 2, sortKeys := true, removeWhitespace := false } =
      "[\x7b\"b\":1,\"a\":2\x7d]" :=
  ⟨rfl, rfl, rfl⟩

/-- Own enumerable keys `Object.keys(x || {})` as the diff engine collects
them: falsy values (`null`, `false`, `0`, the empty string) are first
replaced by `{}`; truthy booleans and numbers have no own enumerable
properties; strings and arrays enumerate their index keys; objects their
field names.  Both readings give the same key list for every value. -/
def jsKeys : JSValue → List String
  | .null => []
  | .bool _ => []
  | .num _ => []
  | .str s => (List.range s.data.length).map natToStr
  | .arr xs => (List.range xs.length).map natToStr
  | .obj fs => fs.map (fun p => p.1)

/-- Keys of a possibly-undefined value (`Object.keys(x || {})`). -/
def jsKeysO : Option JSValue → List String
  | none => []
  | some v => jsKeys v

/-- Optional-chaining property access `o?.[key]`. -/
def jsMemberO : Option JSValue → String → Option JSValue
  | none, _ => none
  | some v, key => jsMember v key

/-- Size of a possibly-undefined value. -/
def jsizeO : Option JSValue → Nat
  | none => 1
  | some v => 1 + jsize v

theorem jsizeO_pos (o : Option JSValue) : 1 ≤ jsizeO o := by
  cases o <;> simp [jsizeO]

theorem jsMemberO_size_le (o : Option JSValue) (k : String) :
    jsizeO (jsMemberO o k) ≤ jsizeO o := by
  cases o with
  | none => simp [jsMemberO, jsizeO]
  | some v =>
    simp only [jsMemberO]
    cases h : jsMember v k with
    | none =>
      have := jsize_pos v
      simp [jsizeO]
    | some w =>
      have := jsMember_size_le v k w h
      simp [jsizeO]
      omega

theorem jsMemberO_size_lt (o : Option JSValue) (k : String) (w : JSValue)
    (h : jsMemberO o k = some w) (hw : isComposite w = true) :
    jsizeO (some w) < jsizeO o := by
  cases o with
  | none => simp [jsMemberO] at h
  | some v =>
    simp only [jsMemberO] at h
    have := jsMember_size_lt_of_composite v k w h hw
    simp [jsizeO]
    omega

/-- Sorted union of the two key sets, as
`Array.from(new Set([...keys1, ...keys2])).sort()`: concatenation keeping
first occurrences, then the default lexicographic sort. -/
def unionKeys (o1 o2 : Option JSValue) : List String :=
  sortStrs ((jsKeysO o1 ++ jsKeysO o2).eraseDups)

/-- JavaScript `typeof v === 'object' && v !== null` for a defined value:
true exactly for arrays and objects. -/
def isObjectNonNull : JSValue → Bool
  | .arr _ => true
  | .obj _ => true
  | _ => false

/-- JavaScript `typeof v === 'object' && v !== null && !Array.isArray(v)`:
true exactly for objects. -/
def isPlainObject : JSValue → Bool
  | .obj _ => true
  | _ => false

/-- The two-space-per-level indentation `'  '.repeat(indent)`. -/
def indentSpaces (indentLevel : Nat) : String := String.mk (List.replicate (2 * indentLevel) ' ')

/-- Replace every newline by a newline plus `ins`, modelling
`t.split('\n').join('\n' + ins)`. -/
def reNl (ins : List Char) : List Char → List Char
  | [] => []
  | c :: t => if c = '\n' then '\n' :: (ins ++ reNl ins t) else c :: reNl ins t

/-- The diff engine's re-indented pretty rendering
`JSON.stringify(v, null, 2).split('\n').join('\n' + spaces + '  ')`. -/
def reindentPretty (v : JSValue) (spaces : String) : String :=
  String.mk (reNl (spaces.data ++ [' ', ' ']) (printV [' ', ' '] [] v))

/-- Serialization of a possibly-undefined value: `JSON.stringify(undefined)`
is the undefined value, not a string. -/
def stringifyOpt : Option JSValue → Option String
  | none => none
  | some v => some (jsStringify v)

/-- Template interpolation of `JSON.stringify(val)`: the undefined value
renders as the text `undefined`. -/
def stringifyOptText : Option JSValue → String
  | none => "undefined"
  | some v => jsStringify v

mutual

/-- Fuel-indexed body of the engine's `generateDiff(obj1, obj2, path,
indent)`: the union of both key sets in sorted order, each key contributing
its entry text.  The fuel only bounds the recursion depth; by
`diff_fuel_stable` every fuel at least twice the combined size gives the
same text, so the wrapper `generateDiff` below is fuel-independent. -/
def gdiffFuel : Nat → Option JSValue → Option JSValue → String → Nat → String
  | 0, _, _, _, _ => ""
  | f + 1, obj1, obj2, path, indentLevel =>
    String.join ((unionKeys obj1 obj2).map (fun key => entryFuel f obj1 obj2 path indentLevel key))

/-- Fuel-indexed body of one key's contribution inside the loop of
`generateDiff`: values equal by serialized comparison contribute a wrapped
recursion for plain objects and one unchanged line otherwise; with unequal
serializations, an absent left value is an added line (pretty-printed
re-indented only for plain objects), an absent right value a removed line,
two object-typed non-null values a wrapped recursion, and anything else a
removed line followed by an added line (pretty-printed re-indented for
object-typed non-null values, arrays included). -/
def entryFuel : Nat → Option JSValue → Option JSValue → String → Nat → String → String
  | 0, _, _, _, _, _ => ""
  | f + 1, obj1, obj2, path, indentLevel, key =>
    let spaces := indentSpaces indentLevel
    let currentPath := if path = "" then key else path ++ "." ++ key
    let val1 := jsMemberO obj1 key
    let val2 := jsMemberO obj2 key
    if stringifyOpt val1 = stringifyOpt val2 then
      match val1 with
      | some (.obj _) =>
        spaces ++ "  \"" ++ key ++ "\": \x7b\n" ++
          gdiffFuel f val1 val2 currentPath (indentLevel + 1) ++
          spaces ++ "  \x7d\n"
      | _ => spaces ++ "  \"" ++ key ++ "\": " ++ stringifyOptText val1 ++ "\n"
    else
      match val1, val2 with
      | none, v2o =>
        match v2o with
        | some (.obj fs2) =>
          spaces ++ "+ \"" ++ key ++ "\": " ++ reindentPretty (.obj fs2) spaces ++ "\n"
        | _ => spaces ++ "+ \"" ++ key ++ "\": " ++ stringifyOptText v2o ++ "\n"
      | some v1, none =>
        match v1 with
        | .obj fs1 =>
          spaces ++ "- \"" ++ key ++ "\": " ++ reindentPretty (.obj fs1) spaces ++ "\n"
        | _ => spaces ++ "- \"" ++ key ++ "\": " ++ jsStringify v1 ++ "\n"
      | some v1, some v2 =>
        if isObjectNonNull v1 && isObjectNonNull v2 then
          spaces ++ "  \"" ++ key ++ "\": \x7b\n" ++
            gdiffFuel f (some v1) (some v2) currentPath (indentLevel + 1) ++
            spaces ++ "  \x7d\n"
        else
          (if isObjectNonNull v1 then
            spaces ++ "- \"" ++ key ++ "\": " ++ reindentPretty v1 spaces ++ "\n"
          else spaces ++ "- \"" ++ key ++ "\": " ++ jsStringify v1 ++ "\n") ++
          (if isObjectNonNull v2 then
            spaces ++ "+ \"" ++ key ++ "\": " ++ reindentPretty v2 spaces ++ "\n"
          else spaces ++ "+ \"" ++ key ++ "\": " ++ jsStringify v2 ++ "\n")

end

/-- The engine's `generateDiff`, with fuel twice the combined size (enough
by `diff_fuel_stable`: each two fuel steps shrink the combined size). -/
def generateDiff (obj1 obj2 : Option JSValue) (path : String) (indentLevel : Nat) : String :=
  gdiffFuel (2 * (jsizeO obj1 + jsizeO obj2)) obj1 obj2 path indentLevel

/-- One key's contribution inside the loop of `generateDiff`. -/
def entryDiff (obj1 obj2 : Option JSValue) (path : String) (indentLevel : Nat) (key : String) :
    String :=
  entryFuel (2 * (jsizeO obj1 + jsizeO obj2)) obj1 obj2 path indentLevel key

/-- The engine's `compareJSON`: a parse failure on either side throws a
fixed `FormatError`; otherwise the diff text of the two parsed values and
the flag `diff.includes('+ ') || diff.includes('- ')`. -/
def compareJSON (json1 json2 : Option JSValue) : Except String (String × Bool) :=
  match json1, json2 with
  | some obj1, some obj2 =>
    let diff := generateDiff (some obj1) (some obj2) "" 0
    .ok (diff, jsIncludes diff "+ " || jsIncludes diff "- ")
  | _, _ => .error "Invalid JSON format in one or both inputs"

example : generateDiff (some (.obj [("a", .num 1)])) (some (.obj [("a", .num 1), ("b", .num 2)]))
    "" 0 = "  \"a\": 1\n+ \"b\": 2\n" := by rfl
example : generateDiff (some (.obj [("a", .obj [("x", .num 1)])]))
    (some (.obj [("a", .obj [("x", .num 2)])])) "" 0 =
    "  \"a\": \x7b\n  - \"x\": 1\n  + \"x\": 2\n  \x7d\n" := by rfl
example : generateDiff (some (.obj [("a", .arr [.num 1])])) (some (.obj [("a", .arr [.num 1])]))
    "" 0 = "  \"a\": [1]\n" := by rfl
example : compareJSON (some (.num 1)) (some (.num 2)) = .ok ("", false) := by rfl
example : compareJSON (some (.str "ab")) (some (.str "cb")) =
    .ok ("- \"0\": \"a\"\n+ \"0\": \"c\"\n  \"1\": \"b\"\n", true) := by rfl

/-- Fuel stability of the diff bodies: any fuel of at least twice the
combined size (one less for an entry) produces the same text, so the
wrappers `generateDiff` and `entryDiff` compute the limit of the recursion,
and fuel exhaustion is unreachable. -/
theorem diff_fuel_stable : ∀ n : Nat,
    (∀ (o1 o2 : Option JSValue) (path : String) (ind : Nat) (key : String) (f g : Nat),
      jsizeO o1 + jsizeO o2 ≤ n →
      2 * (jsizeO o1 + jsizeO o2) ≤ f + 1 →
      2 * (jsizeO o1 + jsizeO o2) ≤ g + 1 →
      entryFuel f o1 o2 path ind key = entryFuel g o1 o2 path ind key) ∧
    (∀ (o1 o2 : Option JSValue) (path : String) (ind : Nat) (f g : Nat),
      jsizeO o1 + jsizeO o2 ≤ n →
      2 * (jsizeO o1 + jsizeO o2) ≤ f →
      2 * (jsizeO o1 + jsizeO o2) ≤ g →
      gdiffFuel f o1 o2 path ind = gdiffFuel g o1 o2 path ind) := by
  intro n
  induction n using Nat.strong_induction_on with
  | _ n IH =>
    have hentry : ∀ (o1 o2 : Option JSValue) (path : String) (ind : Nat) (key : String) (f g : Nat),
        jsizeO o1 + jsizeO o2 ≤ n →
        2 * (jsizeO o1 + jsizeO o2) ≤ f + 1 →
        2 * (jsizeO o1 + jsizeO o2) ≤ g + 1 →
        entryFuel f o1 o2 path ind key = entryFuel g o1 o2 path ind key := by
      intro o1 o2 path ind key f g hs hf hg
      have hp1 := jsizeO_pos o1
      have hp2 := jsizeO_pos o2
      obtain ⟨f1, rfl⟩ : ∃ f1, f = f1 + 1 := ⟨f - 1, by omega⟩
      obtain ⟨g1, rfl⟩ : ∃ g1, g = g1 + 1 := ⟨g - 1, by omega⟩
      simp only [entryFuel]
      by_cases heq : stringifyOpt (jsMemberO o1 key) = stringifyOpt (jsMemberO o2 key)
      · rw [if_pos heq, if_pos heq]
        cases hm1 : jsMemberO o1 key with
        | none => rfl
        | some v1 =>
          cases v1 with
          | obj fs1 =>
            have hlt1 : jsizeO (some (JSValue.obj fs1)) < jsizeO o1 :=
              jsMemberO_size_lt o1 key _ hm1 rfl
            have hle2 : jsizeO (jsMemberO o2 key) ≤ jsizeO o2 := jsMemberO_size_le o2 key
            have hrec := (IH (jsizeO (some (JSValue.obj fs1)) + jsizeO (jsMemberO o2 key))
              (by omega)).2 (some (.obj fs1)) (jsMemberO o2 key)
              (if path = "" then key else path ++ "." ++ key) (ind + 1) f1 g1
              le_rfl (by omega) (by omega)
            rw [hrec]
          | null => rfl
          | bool b => rfl
          | num m => rfl
          | str s => rfl
          | arr xs => rfl
      · rw [if_neg heq, if_neg heq]
        cases hm1 : jsMemberO o1 key with
        | none => rfl
        | some v1 =>
          cases hm2 : jsMemberO o2 key with
          | none => rfl
          | some v2 =>
            dsimp only
            by_cases hobj : (isObjectNonNull v1 && isObjectNonNull v2) = true
            · rw [if_pos hobj, if_pos hobj]
              have hab : isObjectNonNull v1 = true ∧ isObjectNonNull v2 = true := by
                have h0 := hobj
                simp only [Bool.and_eq_true] at h0
                exact h0
              have hc1 : isComposite v1 = true := by
                cases v1 <;> first | rfl | exact absurd hab.1 (by simp [isObjectNonNull])
              have hc2 : isComposite v2 = true := by
                cases v2 <;> first | rfl | exact absurd hab.2 (by simp [isObjectNonNull])
              have hlt1 : jsizeO (some v1) < jsizeO o1 := jsMemberO_size_lt o1 key v1 hm1 hc1
              have hlt2 : jsizeO (some v2) < jsizeO o2 := jsMemberO_size_lt o2 key v2 hm2 hc2
              have hrec := (IH (jsizeO (some v1) + jsizeO (some v2)) (by omega)).2
                (some v1) (some v2) (if path = "" then key else path ++ "." ++ key)
                (ind + 1) f1 g1 le_rfl (by omega) (by omega)
              rw [hrec]
            · rw [if_neg hobj, if_neg hobj]
    have hgdiff : ∀ (o1 o2 : Option JSValue) (path : String) (ind : Nat) (f g : Nat),
        jsizeO o1 + jsizeO o2 ≤ n →
        2 * (jsizeO o1 + jsizeO o2) ≤ f →
        2 * (jsizeO o1 + jsizeO o2) ≤ g →
        gdiffFuel f o1 o2 path ind = gdiffFuel g o1 o2 path ind := by
      intro o1 o2 path ind f g hs hf hg
      have hp1 := jsizeO_pos o1
      have hp2 := jsizeO_pos o2
      obtain ⟨f1, rfl⟩ : ∃ f1, f = f1 + 1 := ⟨f - 1, by omega⟩
      obtain ⟨g1, rfl⟩ : ∃ g1, g = g1 + 1 := ⟨g - 1, by omega⟩
      simp only [gdiffFuel]
      congr 1
      apply List.map_congr_left
      intro key _
      exact hentry o1 o2 path ind key f1 g1 hs (by omega) (by omega)
    exact ⟨hentry, hgdiff⟩

/-- Any sufficient fuel computes `generateDiff`. -/
theorem gdiffFuel_eq_generateDiff (f : Nat) (o1 o2 : Option JSValue) (path : String) (ind : Nat)
    (hf : 2 * (jsizeO o1 + jsizeO o2) ≤ f) :
    gdiffFuel f o1 o2 path ind = generateDiff o1 o2 path ind :=
  (diff_fuel_stable (jsizeO o1 + jsizeO o2)).2 o1 o2 path ind f
    (2 * (jsizeO o1 + jsizeO o2)) le_rfl hf le_rfl

/-- Any sufficient fuel computes `entryDiff`. -/
theorem entryFuel_eq_entryDiff (f : Nat) (o1 o2 : Option JSValue) (path : String) (ind : Nat)
    (key : String) (hf : 2 * (jsizeO o1 + jsizeO o2) ≤ f + 1) :
    entryFuel f o1 o2 path ind key = entryDiff o1 o2 path ind key :=
  (diff_fuel_stable (jsizeO o1 + jsizeO o2)).1 o1 o2 path ind key f
    (2 * (jsizeO o1 + jsizeO o2)) le_rfl hf (by omega)

/-- The loop equation of `generateDiff`: the sorted key union, each key
contributing its entry text. -/
theorem generateDiff_unfold (o1 o2 : Option JSValue) (path : String) (ind : Nat) :
    generateDiff o1 o2 path ind =
      String.join ((unionKeys o1 o2).map (fun key => entryDiff o1 o2 path ind key)) := by
  have hp1 := jsizeO_pos o1
  have hp2 := jsizeO_pos o2
  obtain ⟨m, hm⟩ : ∃ m, 2 * (jsizeO o1 + jsizeO o2) = m + 1 :=
    ⟨2 * (jsizeO o1 + jsizeO o2) - 1, by omega⟩
  unfold generateDiff
  rw [hm]
  simp only [gdiffFuel]
  congr 1
  apply List.map_congr_left
  intro key _
  exact entryFuel_eq_entryDiff m o1 o2 path ind key (by omega)

/-- Entry equation for a key present on both sides with equal canonical
serializations: plain objects recurse in a wrapped block; everything else
(arrays included) contributes one collapsed unchanged line. -/
theorem entryDiff_equal_members (o1 o2 : Option JSValue) (path : String) (ind : Nat)
    (key : String) (v1 v2 : JSValue)
    (h1 : jsMemberO o1 key = some v1) (h2 : jsMemberO o2 key = some v2)
    (heq : jsStringify v1 = jsStringify v2) :
    entryDiff o1 o2 path ind key =
      match v1 with
      | .obj _ =>
        indentSpaces ind ++ "  \"" ++ key ++ "\": \x7b\n" ++
          generateDiff (some v1) (some v2) (if path = "" then key else path ++ "." ++ key)
            (ind + 1) ++
          indentSpaces ind ++ "  \x7d\n"
      | _ => indentSpaces ind ++ "  \"" ++ key ++ "\": " ++ jsStringify v1 ++ "\n" := by
  have hp1 := jsizeO_pos o1
  have hp2 := jsizeO_pos o2
  obtain ⟨m, hm⟩ : ∃ m, 2 * (jsizeO o1 + jsizeO o2) = m + 1 :=
    ⟨2 * (jsizeO o1 + jsizeO o2) - 1, by omega⟩
  unfold entryDiff
  rw [hm]
  simp only [entryFuel]
  simp only [h1, h2]
  have hcond : stringifyOpt (some v1) = stringifyOpt (some v2) := by
    simp [stringifyOpt, heq]
  rw [if_pos hcond]
  have hle2 : jsizeO (some v2) ≤ jsizeO o2 := by
    have := jsMemberO_size_le o2 key
    rw [h2] at this
    exact this
  cases v1 with
  | obj fs1 =>
    have hlt1 : jsizeO (some (JSValue.obj fs1)) < jsizeO o1 :=
      jsMemberO_size_lt o1 key _ h1 rfl
    dsimp only
    rw [gdiffFuel_eq_generateDiff m (some (.obj fs1)) (some v2)
      (if path = "" then key else path ++ "." ++ key) (ind + 1) (by omega)]
  | null => rfl
  | bool b => rfl
  | num m2 => rfl
  | str s => rfl
  | arr xs => rfl

/-- C4 (amended): for a key present on both sides whose values are equal
under the engine's serialized-text comparison, the engine recurses into a
wrapped block (unprefixed braces) only when the value is a plain Object;
an engine-equal Array -- like a scalar -- contributes one collapsed
two-space-prefixed line holding the compact serialization, and is not
recursed into. -/
theorem diff_equal_composite_entry (o1 o2 : Option JSValue) (path : String) (ind : Nat)
    (key : String) (v1 v2 : JSValue)
    (h1 : jsMemberO o1 key = some v1) (h2 : jsMemberO o2 key = some v2)
    (heq : jsStringify v1 = jsStringify v2)
    (hcomp : isComposite v1 = true) :
    entryDiff o1 o2 path ind key =
      (if isPlainObject v1 then
        indentSpaces ind ++ "  \"" ++ key ++ "\": \x7b\n" ++
          generateDiff (some v1) (some v2) (if path = "" then key else path ++ "." ++ key)
            (ind + 1) ++
          indentSpaces ind ++ "  \x7d\n"
      else
        indentSpaces ind ++ "  \"" ++ key ++ "\": " ++ jsStringify v1 ++ "\n") := by
  rw [entryDiff_equal_members o1 o2 path ind key v1 v2 h1 h2 heq]
  cases v1 <;> rfl

/-- Witness for C4 (amended): on two identical `{"a":[1]}` documents the
key `a` holds engine-equal arrays; the entry is the single collapsed
unchanged line, not a wrapped recursion. -/
theorem diff_equal_composite_entry_witness :
    entryDiff (some (JSValue.obj [("a", .arr [.num 1])]))
      (some (JSValue.obj [("a", .arr [.num 1])])) "" 0 "a" = "  \"a\": [1]\n" := by
  have h := diff_equal_composite_entry (some (JSValue.obj [("a", .arr [.num 1])]))
    (some (JSValue.obj [("a", .arr [.num 1])])) "" 0 "a"
    (.arr [.num 1]) (.arr [.num 1]) rfl rfl rfl rfl
  exact h.trans (by rfl)

/-- Counterexample to C4 as stated: for two identical `{"a":[1]}` documents
the engine-equal composite (an Array) under key `a` is rendered as one
collapsed line; no wrapped block (no brace) appears in the diff at all. -/
theorem diff_equal_array_collapsed :
    generateDiff (some (JSValue.obj [("a", .arr [.num 1])]))
      (some (JSValue.obj [("a", .arr [.num 1])])) "" 0 = "  \"a\": [1]\n" ∧
    jsIncludes (generateDiff (some (JSValue.obj [("a", .arr [.num 1])]))
      (some (JSValue.obj [("a", .arr [.num 1])])) "" 0) "\x7b" = false :=
  ⟨rfl, rfl⟩

/-- C3 (amended): `hasDifferences` is exactly the substring test
`diff.includes('+ ') || diff.includes('- ')` over the whole rendered text
-- including occurrences inside serialized values on unchanged lines -- so
it can be true even when no line of the diff is an added or removed line. -/
theorem compareJSON_hasDifferences_substring (v1 v2 : JSValue) :
    compareJSON (some v1) (some v2) =
      .ok (generateDiff (some v1) (some v2) "" 0,
        jsIncludes (generateDiff (some v1) (some v2) "" 0) "+ " ||
        jsIncludes (generateDiff (some v1) (some v2) "" 0) "- ") := rfl

/-- Added-or-removed test on one rendered line: after its leading
indentation the line starts with `+ ` or `- `. -/
def lineIsAddedOrRemoved (l : List Char) : Bool :=
  ['+', ' '].isPrefixOf (l.dropWhile (fun c => c = ' ')) ||
  ['-', ' '].isPrefixOf (l.dropWhile (fun c => c = ' '))

/-- Counterexample to C3 as stated: comparing `{"a":"+ "}` with itself
yields a diff whose every line is unchanged (no line starts with `+ ` or
`- ` after its indentation), yet `hasDifferences` is true, because the
serialized string value contains the substring `+ `. -/
theorem compareJSON_plus_inside_value :
    compareJSON (some (JSValue.obj [("a", .str "+ ")]))
      (some (JSValue.obj [("a", .str "+ ")])) =
      .ok ("  \"a\": \"+ \"\n", true) ∧
    (splitNlChars ("  \"a\": \"+ \"\n").data).all (fun l => !lineIsAddedOrRemoved l) = true :=
  ⟨rfl, rfl⟩

/-- Scalar test excluding strings: `null`, booleans and numbers. -/
def isNonStringScalar : JSValue → Bool
  | .null => true
  | .bool _ => true
  | .num _ => true
  | _ => false

/-- C10 (amended): for top-level scalars that are `null`, booleans or
numbers -- even two different ones -- the key union is empty, so the diff
text is empty and `hasDifferences` is false.  Strings are excluded: their
characters are own enumerable index properties and are diffed positionally
(see the counterexample). -/
theorem compareJSON_scalars_no_diff (v1 v2 : JSValue)
    (h1 : isNonStringScalar v1 = true) (h2 : isNonStringScalar v2 = true) :
    compareJSON (some v1) (some v2) = .ok ("", false) := by
  have hk1 : jsKeys v1 = [] := by
    cases v1 <;> first | rfl | exact absurd h1 (by simp [isNonStringScalar])
  have hk2 : jsKeys v2 = [] := by
    cases v2 <;> first | rfl | exact absurd h2 (by simp [isNonStringScalar])
  have hd : generateDiff (some v1) (some v2) "" 0 = "" := by
    rw [generateDiff_unfold]
    simp [unionKeys, jsKeysO, hk1, hk2, sortStrs, String.join]
  simp [compareJSON, hd, jsIncludes, isInfixChars]

/-- Witness for C10 (amended): the distinct scalar documents `1` and `2`
compare with an empty diff and no differences reported. -/
theorem compareJSON_scalars_no_diff_witness :
    compareJSON (some (JSValue.num 1)) (some (JSValue.num 2)) = .ok ("", false) :=
  compareJSON_scalars_no_diff (.num 1) (.num 2) rfl rfl

/-- Counterexample to C10 as stated: the string scalar documents `"a"` and
`"b"` are diffed character by character through their index properties, so
the diff is not empty and `hasDifferences` is true. -/
theorem compareJSON_string_scalars_diff :
    compareJSON (some (JSValue.str "a")) (some (JSValue.str "b")) =
      .ok ("- \"0\": \"a\"\n+ \"0\": \"b\"\n", true) := rfl

/-- JavaScript truthiness of a JSON value: `null`, `false`, `0` and the
empty string are falsy; every other value (arrays and objects always) is
truthy. -/
def truthy : JSValue → Bool
  | .null => false
  | .bool b => b
  | .num n => decide (n ≠ 0)
  | .str s => !s.data.isEmpty
  | .arr _ => true
  | .obj _ => true

/-- Truthiness of a possibly-undefined property value. -/
def truthyOpt : Option JSValue → Bool
  | none => false
  | some v => truthy v

/-- The runtime kind string the validator computes:
`Array.isArray(data) ? 'array' : data === null ? 'null' : typeof data`. -/
def typeofName : JSValue → String
  | .arr _ => "array"
  | .null => "null"
  | .obj _ => "object"
  | .str _ => "string"
  | .num _ => "number"
  | .bool _ => "boolean"

/-- Strict equality `t !== s` (negated) between a JSON value and a runtime
kind string: only a string value can be equal. -/
def jsEqStr (t : JSValue) (s : String) : Bool :=
  match t with
  | .str u => u = s
  | _ => false

mutual

/-- JavaScript string coercion `String(v)` of a JSON value: arrays join
their elements with commas (a `null` element renders as the empty string),
objects render as `[object Object]`. -/
def jsToStr : JSValue → String
  | .null => "null"
  | .bool b => if b then "true" else "false"
  | .num n => String.mk (intChars n)
  | .str s => s
  | .arr xs => String.intercalate "," (jsToStrElems xs)
  | .obj _ => "[object Object]"

/-- Element renderings for `Array.prototype.join`. -/
def jsToStrElems : List JSValue → List String
  | [] => []
  | .null :: r => "" :: jsToStrElems r
  | x :: r => jsToStr x :: jsToStrElems r

end

/-- JavaScript whitespace trimmed by `ToNumber` on strings. -/
def isJsWs (c : Char) : Bool :=
  c = ' ' || c = '\t' || c = '\n' || c = '\r' || c = '\x0c' || c = '\x0b'

/-- The numeric coercion `ToNumber` on a string, in the embedding's integer
number model (`none` is `NaN`): trimmed empty text is zero, an optional
sign followed by decimal digits is its value, anything else -- including
the fractional, exponent and hexadecimal forms the embedding's integer
model cannot hold -- is `NaN`. -/
def strToNumberOpt (s : String) : Option Int :=
  match (s.data.dropWhile isJsWs).reverse.dropWhile isJsWs |>.reverse with
  | [] => some 0
  | '-' :: ds => if !ds.isEmpty && ds.all isDigitChar then some (-(digitsToNat ds : Int)) else none
  | '+' :: ds => if !ds.isEmpty && ds.all isDigitChar then some ((digitsToNat ds : Int)) else none
  | ds => if ds.all isDigitChar then some ((digitsToNat ds : Int)) else none

/-- JavaScript `ToNumber` of a JSON value (`none` is `NaN`): `null` is 0,
booleans are 0 or 1, arrays coerce through their joined text, objects are
`NaN`. -/
def toNumberOpt : JSValue → Option Int
  | .null => some 0
  | .bool b => some (if b then 1 else 0)
  | .num n => some n
  | .str s => strToNumberOpt s
  | .arr xs => strToNumberOpt (jsToStr (.arr xs))
  | .obj _ => none

/-- The comparison `d < m` between a number and an arbitrary JSON value,
as JavaScript's relational operator: coerce `m` to a number; any `NaN`
comparison is false. -/
def jsLtNum (d : Int) (m : JSValue) : Bool :=
  match toNumberOpt m with
  | some mv => decide (d < mv)
  | none => false

/-- The comparison `d > m` under the same coercion. -/
def jsGtNum (d : Int) (m : JSValue) : Bool :=
  match toNumberOpt m with
  | some mv => decide (mv < d)
  | none => false

/-- Strict equality `===` between JSON values as `Array.prototype.includes`
applies it: value equality on primitives; reference equality on composites,
which is always false here because the enum members and the data come from
two distinct `JSON.parse` calls. -/
def primEq : JSValue → JSValue → Bool
  | .null, .null => true
  | .bool a, .bool b => a = b
  | .num a, .num b => a = b
  | .str a, .str b => a = b
  | _, _ => false

/-- Indexed entries of an array, as `Object.entries` enumerates it. -/
def entriesIdx : Nat → List JSValue → List (String × JSValue)
  | _, [] => []
  | i, x :: r => (natToStr i, x) :: entriesIdx (i + 1) r

/-- Indexed entries of a string, as `Object.entries` enumerates its
characters. -/
def strEntriesIdx : Nat → List Char → List (String × JSValue)
  | _, [] => []
  | i, c :: r => (natToStr i, .str (String.mk [c])) :: strEntriesIdx (i + 1) r

/-- `Object.entries(v)`: field pairs of an object, indexed elements of an
array, indexed characters of a string, nothing for other primitives. -/
def jsEntries : JSValue → List (String × JSValue)
  | .obj fs => fs
  | .arr xs => entriesIdx 0 xs
  | .str s => strEntriesIdx 0 s.data
  | .null => []
  | .bool _ => []
  | .num _ => []

/-- Maximal size among entry values, the measure bounding the schema
recursion through `Object.entries`. -/
def entriesMax : List (String × JSValue) → Nat
  | [] => 0
  | (_, v) :: r => max (jsize v) (entriesMax r)

theorem entriesMax_le_of : ∀ (l : List (String × JSValue)) (c : Nat),
    (∀ k w, (k, w) ∈ l → jsize w ≤ c) → entriesMax l ≤ c
  | [], c, _ => Nat.zero_le c
  | (k, v) :: r, c, h => by
    simp only [entriesMax]
    have h1 := h k v (List.mem_cons_self _ _)
    have h2 := entriesMax_le_of r c (fun k2 w hm => h k2 w (List.mem_cons_of_mem _ hm))
    omega

theorem entriesIdx_size : ∀ (xs : List JSValue) (i : Nat) (k : String) (w : JSValue),
    (k, w) ∈ entriesIdx i xs → jsize w ≤ jsizeL xs
  | [], _, _, _, h => by simp [entriesIdx] at h
  | x :: r, i, k, w, h => by
    simp only [entriesIdx, List.mem_cons] at h
    cases h with
    | inl he =>
      cases he
      simp [jsizeL]
    | inr hm =>
      have := entriesIdx_size r (i + 1) k w hm
      simp only [jsizeL]
      omega

theorem strEntriesIdx_size : ∀ (cs : List Char) (i : Nat) (k : String) (w : JSValue),
    (k, w) ∈ strEntriesIdx i cs → jsize w = 1
  | [], _, _, _, h => by simp [strEntriesIdx] at h
  | c :: r, i, k, w, h => by
    simp only [strEntriesIdx, List.mem_cons] at h
    cases h with
    | inl he =>
      cases he
      rfl
    | inr hm => exact strEntriesIdx_size r (i + 1) k w hm

theorem fieldsVals_size : ∀ (fs : List (String × JSValue)) (k : String) (w : JSValue),
    (k, w) ∈ fs → jsize w ≤ jsizeF fs
  | [], _, _, h => by simp at h
  | (k2, v2) :: r, k, w, h => by
    simp only [List.mem_cons] at h
    cases h with
    | inl he =>
      cases he
      simp [jsizeF]
    | inr hm =>
      have := fieldsVals_size r k w hm
      simp only [jsizeF]
      omega

theorem jsEntries_size (v : JSValue) (k : String) (w : JSValue)
    (h : (k, w) ∈ jsEntries v) : jsize w ≤ jsize v := by
  cases v with
  | obj fs =>
    have := fieldsVals_size fs k w h
    simp only [jsize]
    omega
  | arr xs =>
    have := entriesIdx_size xs 0 k w h
    simp only [jsize]
    omega
  | str s =>
    have := strEntriesIdx_size s.data 0 k w h
    simp [jsize, this]
  | null => simp [jsEntries] at h
  | bool b => simp [jsEntries] at h
  | num n => simp [jsEntries] at h

theorem entriesMax_jsEntries_le (v : JSValue) : entriesMax (jsEntries v) ≤ jsize v :=
  entriesMax_le_of (jsEntries v) (jsize v) (fun k w hm => jsEntries_size v k w hm)

theorem jsMember_keyword_size (v : JSValue) (k : String) (w : JSValue)
    (h : jsMember v k = some w) (hk1 : k ≠ "length") (hk2 : canonIndex k = none) :
    jsize w < jsize v := by
  obtain ⟨fs, rfl, hl⟩ := jsMember_keyword_obj v k w h hk1 hk2
  have := lookupField_size fs k w hl
  simp only [jsize]
  omega

/-- The `required` loop of the validator: one missing-property error for
each listed name not present on the data object (`in` coerces the listed
element to its string form). -/
def requiredErrors (dfs : List (String × JSValue)) (path : String) : List JSValue → List String
  | [] => []
  | k :: rest =>
    (if (lookupField dfs (jsToStr k)).isSome then []
     else [path ++ "." ++ jsToStr k ++ ": Required property missing"]) ++
    requiredErrors dfs path rest

mutual

/-- Null test on a JSON value (reading any property of `null` throws). -/
def isNullV : JSValue → Bool
  | .null => true
  | _ => false

/-- The engine's recursive `validateAgainstSchema(data, schema, path,
errors)`, returning the errors it pushes; `Except.error` models a thrown
`TypeError` (reading a property of a `null` schema, or calling `forEach` on
a non-array truthy `required`), which the `validateSchema` boundary
catches.  Step 1 is the `type` keyword: a truthy declared type that is not
strictly equal to the runtime kind string records one mismatch error and
aborts the remaining checks for this node. -/
def vas (data schema : JSValue) (path : String) : Except Unit (List String) :=
  if isNullV schema then .error ()
  else
    match jsMember schema "type" with
    | some t =>
      if truthy t then
        if jsEqStr t (typeofName data) then vasAfterType data schema path
        else .ok [path ++ ": Expected type " ++ jsToStr t ++ ", got " ++ typeofName data]
      else vasAfterType data schema path
    | none => vasAfterType data schema path
termination_by (jsize schema, 0, 1)
decreasing_by
  all_goals simp only [Prod.lex_def, true_and]
  all_goals omega

/-- Steps 2-8 of `validateAgainstSchema`, in source order: `properties`
(recursing through `Object.entries` when the data is a plain object),
`items` (every element against the single sub-schema when the data is an
array), the array form of `required` (throwing on a truthy non-array),
`enum` (strict-equality membership), and the inclusive numeric, string
length and array length bounds, whose comparisons coerce the schema value
as JavaScript relational operators do. -/
def vasAfterType (data schema : JSValue) (path : String) : Except Unit (List String) := do
  let e1 ←
    match _hp : jsMember schema "properties" with
    | some props =>
      if truthy props then
        match data with
        | .obj dfs => vasProps dfs (jsEntries props) path
        | _ => Except.ok []
      else Except.ok []
    | none => Except.ok []
  let e2 ←
    match _hi : jsMember schema "items" with
    | some items =>
      if truthy items then
        match data with
        | .arr xs => vasItems items xs 0 path
        | _ => Except.ok []
      else Except.ok []
    | none => Except.ok []
  let e3 ←
    match jsMember schema "required" with
    | some req =>
      if truthy req then
        match data with
        | .obj dfs =>
          match req with
          | .arr rs => Except.ok (requiredErrors dfs path rs)
          | _ => Except.error ()
        | _ => Except.ok []
      else Except.ok []
    | none => Except.ok []
  let e4 :=
    match jsMember schema "enum" with
    | some (.arr es) =>
      if es.any (fun e => primEq e data) then []
      else [path ++ ": Value must be one of " ++ jsStringify (.arr es)]
    | _ => []
  let e5 :=
    match jsMember schema "minimum", data with
    | some m, .num d => if jsLtNum d m then [path ++ ": Value must be >= " ++ jsToStr m] else []
    | _, _ => []
  let e6 :=
    match jsMember schema "maximum", data with
    | some m, .num d => if jsGtNum d m then [path ++ ": Value must be <= " ++ jsToStr m] else []
    | _, _ => []
  let e7 :=
    match jsMember schema "minLength", data with
    | some m, .str s =>
      if jsLtNum s.data.length m then [path ++ ": String must be >= " ++ jsToStr m ++ " characters"]
      else []
    | _, _ => []
  let e8 :=
    match jsMember schema "maxLength", data with
    | some m, .str s =>
      if jsGtNum s.data.length m then [path ++ ": String must be <= " ++ jsToStr m ++ " characters"]
      else []
    | _, _ => []
  let e9 :=
    match jsMember schema "minItems", data with
    | some m, .arr xs =>
      if jsLtNum xs.length m then [path ++ ": Array must have >= " ++ jsToStr m ++ " items"]
      else []
    | _, _ => []
  let e10 :=
    match jsMember schema "maxItems", data with
    | some m, .arr xs =>
      if jsGtNum xs.length m then [path ++ ": Array must have <= " ++ jsToStr m ++ " items"]
      else []
    | _, _ => []
  Except.ok (e1 ++ e2 ++ e3 ++ e4 ++ e5 ++ e6 ++ e7 ++ e8 ++ e9 ++ e10)
termination_by (jsize schema, 0, 0)
decreasing_by
  · have h1 := jsMember_keyword_size schema "items" items _hi (by decide) (by decide)
    simp only [Prod.lex_def, true_and]
    omega
  · have h1 := jsMember_keyword_size schema "properties" props _hp (by decide) (by decide)
    have h2 := entriesMax_jsEntries_le props
    simp only [Prod.lex_def, true_and]
    omega

/-- The `properties` loop: for each declared property, a present data
field recurses into its sub-schema; an absent one records a missing error
when the sub-schema itself carries a truthy `required` flag (reading that
flag on a `null` sub-schema throws). -/
def vasProps (dfs : List (String × JSValue)) (entries : List (String × JSValue)) (path : String) :
    Except Unit (List String) :=
  match entries with
  | [] => Except.ok []
  | (key, propSchema) :: rest => do
    let newPath := if path = "" then key else path ++ "." ++ key
    let head ←
      match lookupField dfs key with
      | some dv => vas dv propSchema newPath
      | none =>
        match propSchema with
        | .null => Except.error ()
        | _ =>
          Except.ok (if truthyOpt (jsMember propSchema "required")
            then [newPath ++ ": Required property missing"] else [])
    let tail ← vasProps dfs rest path
    Except.ok (head ++ tail)
termination_by (entriesMax entries, entries.length + 1, 0)
decreasing_by
  all_goals simp only [Prod.lex_def, entriesMax, List.length_cons, true_and]
  all_goals omega

/-- The `items` loop: every element against the single sub-schema, with
bracketed index paths. -/
def vasItems (items : JSValue) (elems : List JSValue) (i : Nat) (path : String) :
    Except Unit (List String) :=
  match elems with
  | [] => Except.ok []
  | x :: rest => do
    let h ← vas x items (path ++ "[" ++ natToStr i ++ "]")
    let t ← vasItems items rest (i + 1) path
    Except.ok (h ++ t)
termination_by (jsize items, elems.length + 1, 0)
decreasing_by
  all_goals simp only [Prod.lex_def, List.length_cons, true_and]
  all_goals omega

end

/-- The engine's `validateSchema`: a parse failure on either text, or a
`TypeError` escaping the recursive check, is caught and reported as the
single generic error with `valid: false`; otherwise `valid` is the
emptiness of the collected error list.  The function is total: nothing
escapes this boundary. -/
def validateSchema (json schema : Option JSValue) : Bool × List String :=
  match json, schema with
  | some data, some schemaVal =>
    match vas data schemaVal "" with
    | .ok errors => (errors.isEmpty, errors)
    | .error _ => (false, ["Invalid JSON or Schema format"])
  | _, _ => (false, ["Invalid JSON or Schema format"])

/-- C8: `validateSchema` fails closed.  For every pair of input texts where
either fails to parse, it returns `valid: false` together with exactly the
one generic error message; and it is a total function of the two parse
outcomes (the embedding of "never throws past its boundary"): the internal
`TypeError` cases of the recursive checker are caught at this boundary and
also map to the same generic failure. -/
theorem validateSchema_fails_closed (json schema : Option JSValue)
    (h : json = none ∨ schema = none) :
    validateSchema json schema = (false, ["Invalid JSON or Schema format"]) ∧
    (validateSchema json schema).2.length = 1 := by
  rcases h with rfl | rfl
  · exact ⟨rfl, rfl⟩
  · cases json with
    | none => exact ⟨rfl, rfl⟩
    | some d => exact ⟨rfl, rfl⟩

/-- Witness for C8: an unparsable data text beside a parseable schema. -/
theorem validateSchema_fails_closed_witness :
    validateSchema none (some (JSValue.obj [("type", .str "object")])) =
      (false, ["Invalid JSON or Schema format"]) :=
  (validateSchema_fails_closed none (some (JSValue.obj [("type", .str "object")])) (Or.inl rfl)).1

/-- Insignificant whitespace of the JSON grammar (RFC 8259). -/
def isWsJson (c : Char) : Bool := c = ' ' || c = '\t' || c = '\n' || c = '\r'

/-- Skip insignificant whitespace. -/
def skipWs (cs : List Char) : List Char := cs.dropWhile isWsJson

/-- Value of one hexadecimal digit. -/
def hexVal (c : Char) : Option Nat :=
  if '0' ≤ c ∧ c ≤ '9' then some (c.toNat - 48)
  else if 'a' ≤ c ∧ c ≤ 'f' then some (c.toNat - 87)
  else if 'A' ≤ c ∧ c ≤ 'F' then some (c.toNat - 55)
  else none

/-- Modelled from the spec: the string-body production of the strict JSON
parser (`JSON.parse`, RFC 8259), reading the characters after the opening
quote up to the closing quote: unescaped control characters are rejected,
the eight short escapes and `\uXXXX` are decoded (a surrogate code in a
`\uXXXX` escape is rejected, as the embedding's strings hold Unicode
scalar values), every other character stands for itself. -/
def parseStr : List Char → Option (List Char × List Char)
  | [] => none
  | '"' :: t => some ([], t)
  | '\\' :: 'u' :: h1 :: h2 :: h3 :: h4 :: t3 =>
    match hexVal h1, hexVal h2, hexVal h3, hexVal h4 with
    | some a, some b, some c2, some d =>
      let code := a * 4096 + b * 256 + c2 * 16 + d
      if code < 55296 then (parseStr t3).map (fun p => (Char.ofNat code :: p.1, p.2))
      else if 57344 ≤ code then
        (parseStr t3).map (fun p => (Char.ofNat code :: p.1, p.2))
      else none
    | _, _, _, _ => none
  | '\\' :: e :: t2 =>
    if e = '"' then (parseStr t2).map (fun p => ('"' :: p.1, p.2))
    else if e = '\\' then (parseStr t2).map (fun p => ('\\' :: p.1, p.2))
    else if e = '/' then (parseStr t2).map (fun p => ('/' :: p.1, p.2))
    else if e = 'n' then (parseStr t2).map (fun p => ('\n' :: p.1, p.2))
    else if e = 'r' then (parseStr t2).map (fun p => ('\r' :: p.1, p.2))
    else if e = 't' then (parseStr t2).map (fun p => ('\t' :: p.1, p.2))
    else if e = 'b' then (parseStr t2).map (fun p => ('\x08' :: p.1, p.2))
    else if e = 'f' then (parseStr t2).map (fun p => ('\x0c' :: p.1, p.2))
    else none
  | ['\\'] => none
  | c :: t =>
    if c.toNat < 32 then none
    else (parseStr t).map (fun p => (c :: p.1, p.2))

/-- Modelled from the spec: the natural-number token of the strict JSON
number grammar in the embedding's integer model -- a nonempty digit run
with no leading zero; a following fraction or exponent part (which the
integer model cannot hold) makes the token fail. -/
def parseNatTok (cs : List Char) : Option (Nat × List Char) :=
  let ds := cs.takeWhile isDigitChar
  let rest := cs.dropWhile isDigitChar
  match ds with
  | [] => none
  | [_] =>
    match rest with
    | c :: _ => if c = '.' ∨ c = 'e' ∨ c = 'E' then none else some (digitsToNat ds, rest)
    | [] => some (digitsToNat ds, rest)
  | d :: _ :: _ =>
    if d = '0' then none
    else
      match rest with
      | c :: _ => if c = '.' ∨ c = 'e' ∨ c = 'E' then none else some (digitsToNat ds, rest)
      | [] => some (digitsToNat ds, rest)

/-- Modelled from the spec: the signed integer token (optional minus). -/
def parseIntTok (cs : List Char) : Option (Int × List Char) :=
  match cs with
  | '-' :: t => (parseNatTok t).map (fun p => (-(p.1 : Int), p.2))
  | _ => (parseNatTok cs).map (fun p => ((p.1 : Int), p.2))

/-- Store one parsed member as `JSON.parse` does: a repeated key keeps its
first position and takes the later value. -/
def setField : List (String × JSValue) → String → JSValue → List (String × JSValue)
  | [], k, v => [(k, v)]
  | (k2, v2) :: rest, k, v =>
    if k2 = k then (k2, v) :: rest else (k2, v2) :: setField rest k v

/-- Fold the members of an object literal into its field list, later
duplicates overwriting earlier ones in place. -/
def dedupFields (ms : List (String × JSValue)) : List (String × JSValue) :=
  ms.foldl (fun acc p => setField acc p.1 p.2) []

mutual

/-- Modelled from the spec: the value production of the strict JSON parser
(`JSON.parse`, RFC 8259) as a fuel-indexed recursive-descent reader
returning the parsed value and the unconsumed input.  Leading whitespace is
skipped; the literals, strings, signed integer numbers, arrays and objects
are recognized by their first character. -/
def parseV : Nat → List Char → Option (JSValue × List Char)
  | 0, _ => none
  | f + 1, cs =>
    match skipWs cs with
    | [] => none
    | c :: t =>
      if c = 'n' then
        if "ull".data.isPrefixOf t then some (.null, t.drop 3) else none
      else if c = 't' then
        if "rue".data.isPrefixOf t then some (.bool true, t.drop 3) else none
      else if c = 'f' then
        if "alse".data.isPrefixOf t then some (.bool false, t.drop 4) else none
      else if c = '"' then
        (parseStr t).map (fun p => (.str (String.mk p.1), p.2))
      else if c = '[' then
        match skipWs t with
        | ']' :: r => some (.arr [], r)
        | _ => (parseElems f t).map (fun p => (.arr p.1, p.2))
      else if c = '\x7b' then
        match skipWs t with
        | '\x7d' :: r => some (.obj [], r)
        | _ => (parseMembers f t).map (fun p => (.obj (dedupFields p.1), p.2))
      else if c = '-' ∨ isDigitChar c then
        (parseIntTok (c :: t)).map (fun p => (.num p.1, p.2))
      else none

/-- Modelled from the spec: the element list of a nonempty array, one value
then a comma and more elements or the closing bracket. -/
def parseElems : Nat → List Char → Option (List JSValue × List Char)
  | 0, _ => none
  | f + 1, cs => do
    let (v, r) ← parseV f cs
    match skipWs r with
    | ',' :: r2 => do
      let (vs, r3) ← parseElems f r2
      some (v :: vs, r3)
    | ']' :: r2 => some ([v], r2)
    | _ => none

/-- Modelled from the spec: the member list of a nonempty object, a quoted
key, a colon, a value, then a comma and more members or the closing
brace. -/
def parseMembers : Nat → List Char → Option (List (String × JSValue) × List Char)
  | 0, _ => none
  | f + 1, cs =>
    match skipWs cs with
    | '"' :: t => do
      let (kcs, r1) ← parseStr t
      match skipWs r1 with
      | ':' :: r2 => do
        let (v, r3) ← parseV f r2
        match skipWs r3 with
        | ',' :: r4 => do
          let (ms, r5) ← parseMembers f r4
          some ((String.mk kcs, v) :: ms, r5)
        | '\x7d' :: r4 => some ([(String.mk kcs, v)], r4)
        | _ => none
      | _ => none
    | _ => none

end

/-- Modelled from the spec: the strict JSON parser `JSON.parse` over the
embedding's value model -- parse one value and require only whitespace to
remain.  The fuel `length + 1` is sufficient for every text the value
printer produces (`parse_print` below needs only `2 * jsize v` fuel, which
is at most the printed length plus one). -/
def jsonParse (s : String) : Option JSValue :=
  match parseV (s.length + 1) s.data with
  | some (v, rest) => if skipWs rest = [] then some v else none
  | none => none

mutual

/-- Recursively duplicate-free object keys: the invariant every value
produced by `JSON.parse` satisfies. -/
def uniqKeysV : JSValue → Bool
  | .null => true
  | .bool _ => true
  | .num _ => true
  | .str _ => true
  | .arr xs => uniqKeysL xs
  | .obj fs => uniqKeysF fs

/-- Key uniqueness over array elements. -/
def uniqKeysL : List JSValue → Bool
  | [] => true
  | x :: r => uniqKeysV x && uniqKeysL r

/-- Key uniqueness over an object's fields: the head key is fresh in the
tail and every value is itself duplicate-free. -/
def uniqKeysF : List (String × JSValue) → Bool
  | [] => true
  | (k, v) :: r => !(lookupField r k).isSome && uniqKeysV v && uniqKeysF r

end

example : jsonParse "\x7b \"a\" : [ 1, -2, null ] \x7d" =
    some (.obj [("a", .arr [.num 1, .num (-2), .null])]) := by rfl
example : jsonParse "\x7b\"a\":\x7b\x7d,\"b\":[],\"c\":true,\"d\":\"x\\n\"\x7d" =
    some (.obj [("a", .obj []), ("b", .arr []), ("c", .bool true), ("d", .str "x\n")]) := by rfl
example : jsonParse "01" = none := by rfl
example : jsonParse "1.5" = none := by rfl
example : jsonParse "\x7b\"a\":1,\"a\":2\x7d" = some (.obj [("a", .num 2)]) := by rfl
example : jsonParse (jsStringify2 (.obj [("b", .num 10), ("a", .arr [.null, .str "x"])])) =
    some (.obj [("b", .num 10), ("a", .arr [.null, .str "x"])]) := by rfl

theorem digitChar10_digit : ∀ k, k < 10 → isDigitChar (digitChar10 k) = true := by decide

theorem digitChar10_toNat : ∀ k, k < 10 → (digitChar10 k).toNat = 48 + k := by decide

theorem digitChar10_ne_zero : ∀ k, k < 10 → 1 ≤ k → digitChar10 k ≠ '0' := by decide

theorem digit_not_ws (d : Char) (h : isDigitChar d = true) : isWsJson d = false := by
  cases hw : isWsJson d
  · rfl
  · exfalso
    simp only [isWsJson, Bool.or_eq_true, decide_eq_true_eq] at hw
    rcases hw with ((h1 | h1) | h1) | h1 <;> (subst h1; exact absurd h (by decide))

theorem digit_ne (d : Char) (h : isDigitChar d = true) (c : Char)
    (hc : isDigitChar c = false) : d ≠ c :=
  fun he => by
    subst he
    rw [h] at hc
    cases hc

theorem natDigitsGo_ne_nil : ∀ (f n : Nat) (acc : List Char), 0 < f ∨ acc ≠ [] →
    natDigitsGo f n acc ≠ []
  | 0, n, acc, h => by
    rcases h with h | h
    · omega
    · exact h
  | f + 1, n, acc, _ => by
    simp only [natDigitsGo]
    split
    · simp
    · exact natDigitsGo_ne_nil f (n / 10) _ (Or.inr (by simp))

theorem natDigitsGo_acc : ∀ (f n : Nat) (acc : List Char),
    natDigitsGo f n acc = natDigitsGo f n [] ++ acc
  | 0, n, acc => by simp [natDigitsGo]
  | f + 1, n, acc => by
    simp only [natDigitsGo]
    split
    · simp
    · rw [natDigitsGo_acc f (n / 10) (digitChar10 (n % 10) :: acc),
        natDigitsGo_acc f (n / 10) [digitChar10 (n % 10)]]
      simp

theorem natDigitsGo_digits : ∀ (f n : Nat), n < f →
    ∀ c ∈ natDigitsGo f n [], isDigitChar c = true
  | 0, n, h => by omega
  | f + 1, n, h => by
    intro c hc
    simp only [natDigitsGo] at hc
    split at hc
    · simp at hc
      subst hc
      exact digitChar10_digit n (by omega)
    · rw [natDigitsGo_acc] at hc
      rename_i hn
      simp only [List.mem_append] at hc
      rcases hc with hc | hc
      · exact natDigitsGo_digits f (n / 10) (by omega) c hc
      · simp at hc
        subst hc
        exact digitChar10_digit (n % 10) (by omega)

theorem natDigitsGo_val : ∀ (f n : Nat), n < f →
    digitsToNat (natDigitsGo f n []) = n
  | 0, n, h => by omega
  | f + 1, n, h => by
    simp only [natDigitsGo]
    split
    · rename_i hn
      simp only [digitsToNat, List.foldl]
      rw [digitChar10_toNat n hn]
      omega
    · rename_i hn
      rw [natDigitsGo_acc]
      have hrec := natDigitsGo_val f (n / 10) (by omega)
      simp only [digitsToNat] at *
      rw [List.foldl_append]
      simp only [List.foldl]
      rw [hrec, digitChar10_toNat (n % 10) (by omega)]
      omega

theorem natDigits_ne_nil (n : Nat) : natDigits n ≠ [] :=
  natDigitsGo_ne_nil (n + 1) n [] (Or.inl (by omega))

theorem natDigits_digits (n : Nat) : ∀ c ∈ natDigits n, isDigitChar c = true :=
  natDigitsGo_digits (n + 1) n (by omega)

theorem natDigits_val (n : Nat) : digitsToNat (natDigits n) = n :=
  natDigitsGo_val (n + 1) n (by omega)

theorem natDigitsGo_head_pos : ∀ (f n : Nat), n < f → 1 ≤ n →
    ∃ d t, natDigitsGo f n [] = d :: t ∧ isDigitChar d = true ∧ d ≠ '0'
  | 0, n, h, _ => by omega
  | f + 1, n, h, hpos => by
    simp only [natDigitsGo]
    split
    · rename_i hn
      exact ⟨digitChar10 n, [], rfl, digitChar10_digit n hn, digitChar10_ne_zero n hn hpos⟩
    · rename_i hn
      obtain ⟨d, t, hdt, hd1, hd2⟩ := natDigitsGo_head_pos f (n / 10) (by omega) (by omega)
      rw [natDigitsGo_acc, hdt]
      exact ⟨d, t ++ [digitChar10 (n % 10)], by simp, hd1, hd2⟩

theorem natDigits_head_pos (n : Nat) (hpos : 1 ≤ n) :
    ∃ d t, natDigits n = d :: t ∧ isDigitChar d = true ∧ d ≠ '0' :=
  natDigitsGo_head_pos (n + 1) n (by omega) hpos

theorem natDigits_head (n : Nat) :
    ∃ d t, natDigits n = d :: t ∧ isDigitChar d = true := by
  cases hdt : natDigits n with
  | nil => exact absurd hdt (natDigits_ne_nil n)
  | cons d t =>
    refine ⟨d, t, rfl, ?_⟩
    exact natDigits_digits n d (hdt ▸ List.mem_cons_self d t)

theorem hexVal_hexChar : ∀ k, k < 16 → hexVal (hexChar k) = some k := by decide

/-- One escaped character parses back to itself. -/
theorem parseStr_escapeChar (c : Char) (l : List Char) :
    parseStr (escapeChar c ++ l) = (parseStr l).map (fun p => (c :: p.1, p.2)) := by
  by_cases h1 : c = '"'
  · subst h1
    rfl
  · by_cases h2 : c = '\\'
    · subst h2
      rfl
    · by_cases h3 : c = '\n'
      · subst h3
        rfl
      · by_cases h4 : c = '\r'
        · subst h4
          rfl
        · by_cases h5 : c = '\t'
          · subst h5
            rfl
          · by_cases h6 : c = '\x08'
            · subst h6
              rfl
            · by_cases h7 : c = '\x0c'
              · subst h7
                rfl
              · by_cases h8 : c.toNat < 32
                · obtain ⟨k, hk, rfl⟩ : ∃ k, k < 32 ∧ c = Char.ofNat k :=
                    ⟨c.toNat, h8, (Char.ofNat_toNat c).symm⟩
                  interval_cases k
                  all_goals rfl
                · have hesc : escapeChar c = [c] := by
                    simp only [escapeChar, if_neg h1, if_neg h2, if_neg h3, if_neg h4,
                      if_neg h5, if_neg h6, if_neg h7, if_neg h8]
                  rw [hesc]
                  simp only [List.cons_append, List.nil_append]
                  rw [parseStr, if_neg h8]
                  · exact fun h => absurd h h1
                  · exact fun _ _ _ _ _ hc _ => h2 hc
                  · exact fun _ _ hc _ => h2 hc
                  · exact fun hc _ => h2 hc

/-- The escaped body of a string literal parses back to the original
characters, leaving everything after the closing quote unconsumed. -/
theorem parseStr_escape : ∀ (cs rest : List Char),
    parseStr (escapeChars cs ++ ('"' :: rest)) = some (cs, rest)
  | [], rest => by rfl
  | c :: cs2, rest => by
    have ih := parseStr_escape cs2 rest
    rw [show escapeChars (c :: cs2) ++ ('"' :: rest) =
        escapeChar c ++ (escapeChars cs2 ++ ('"' :: rest)) from by simp [escapeChars],
      parseStr_escapeChar, ih]
    rfl

theorem dropWhile_append_all (p : Char → Bool) : ∀ (xs ys : List Char),
    (∀ c ∈ xs, p c = true) → (xs ++ ys).dropWhile p = ys.dropWhile p
  | [], _, _ => rfl
  | x :: xs, ys, h => by
    have hx : p x = true := h x (List.mem_cons_self x xs)
    simp only [List.cons_append, List.dropWhile_cons, hx, if_true]
    exact dropWhile_append_all p xs ys (fun c hc => h c (List.mem_cons_of_mem x hc))

theorem dropWhile_cons_neg (p : Char → Bool) (c : Char) (l : List Char) (h : p c = false) :
    (c :: l).dropWhile p = c :: l := by
  simp [List.dropWhile_cons, h]

/-- All characters insignificant JSON whitespace. -/
def wsOnly (l : List Char) : Bool := l.all isWsJson

theorem skipWs_append_ws (W l : List Char) (h : wsOnly W = true) :
    skipWs (W ++ l) = skipWs l :=
  dropWhile_append_all _ W l (by simpa [wsOnly, List.all_eq_true] using h)

theorem skipWs_cons_nonws (c : Char) (l : List Char) (h : isWsJson c = false) :
    skipWs (c :: l) = c :: l :=
  dropWhile_cons_neg _ c l h

theorem strMk_data (s : String) : String.mk s.data = s := rfl

/-- Characters that can start a serialized JSON value. -/
def valueStartChar (c : Char) : Bool :=
  c = 'n' || c = 't' || c = 'f' || c = '"' || c = '[' || c = '\x7b' || c = '-' || isDigitChar c

theorem valueStart_not_ws (c : Char) (h : valueStartChar c = true) : isWsJson c = false := by
  simp only [valueStartChar, Bool.or_eq_true, decide_eq_true_eq] at h
  rcases h with ((((((h | h) | h) | h) | h) | h) | h) | h
  all_goals first | (subst h; decide) | (exact digit_not_ws c h)

theorem valueStart_ne_closers (c : Char) (h : valueStartChar c = true) :
    c ≠ ']' ∧ c ≠ '\x7d' := by
  simp only [valueStartChar, Bool.or_eq_true, decide_eq_true_eq] at h
  rcases h with ((((((h | h) | h) | h) | h) | h) | h) | h
  all_goals first
    | (subst h; exact ⟨by decide, by decide⟩)
    | (exact ⟨digit_ne c h ']' (by decide), digit_ne c h '\x7d' (by decide)⟩)

/-- Every serialized value is nonempty and starts with a value-start
character. -/
theorem printV_cons (gap ind : List Char) (v : JSValue) :
    ∃ c t, printV gap ind v = c :: t ∧ valueStartChar c = true := by
  cases v with
  | null => exact ⟨'n', _, rfl, by decide⟩
  | bool b =>
    cases b
    · exact ⟨'f', _, rfl, by decide⟩
    · exact ⟨'t', _, rfl, by decide⟩
  | num n =>
    cases n with
    | ofNat m =>
      obtain ⟨d, t, hdt, hd⟩ := natDigits_head m
      exact ⟨d, t, by simp only [printV, intChars, hdt],
        by simp [valueStartChar, hd]⟩
    | negSucc m => exact ⟨'-', _, rfl, by decide⟩
  | str s => exact ⟨'"', _, rfl, by decide⟩
  | arr xs =>
    cases xs with
    | nil => exact ⟨'[', _, rfl, by decide⟩
    | cons x r =>
      have h : printV gap ind (.arr (x :: r)) =
          if gap.isEmpty then '[' :: (joinSep [','] (printL gap ind (x :: r)) ++ [']'])
          else
            '[' :: '\n' ::
              (joinSep [',', '\n']
                  ((printL gap (ind ++ gap) (x :: r)).map (fun piece => ind ++ gap ++ piece)) ++
                ('\n' :: ind ++ [']'])) := rfl
      by_cases hg : gap.isEmpty = true
      · exact ⟨'[', _, by rw [h, if_pos hg], by decide⟩
      · exact ⟨'[', _, by rw [h, if_neg hg], by decide⟩
  | obj fs =>
    cases fs with
    | nil => exact ⟨'\x7b', _, rfl, by decide⟩
    | cons f r =>
      have h : printV gap ind (.obj (f :: r)) =
          if gap.isEmpty then '\x7b' :: (joinSep [','] (printF gap ind (f :: r)) ++ ['\x7d'])
          else
            '\x7b' :: '\n' ::
              (joinSep [',', '\n']
                  ((printF gap (ind ++ gap) (f :: r)).map (fun piece => ind ++ gap ++ piece)) ++
                ('\n' :: ind ++ ['\x7d'])) := rfl
      by_cases hg : gap.isEmpty = true
      · exact ⟨'\x7b', _, by rw [h, if_pos hg], by decide⟩
      · exact ⟨'\x7b', _, by rw [h, if_neg hg], by decide⟩

/-- The unconsumed input after a number token must not extend the token:
no digit and no fraction or exponent starter. -/
def numBoundary : List Char → Bool
  | [] => true
  | c :: _ => !(isDigitChar c || c = '.' || c = 'e' || c = 'E')

theorem numBoundary_take_drop (rest : List Char) (hb : numBoundary rest = true) :
    rest.takeWhile isDigitChar = [] ∧ rest.dropWhile isDigitChar = rest := by
  cases rest with
  | nil => exact ⟨rfl, rfl⟩
  | cons c rt =>
    simp only [numBoundary, Bool.not_eq_true', Bool.or_eq_false_iff] at hb
    obtain ⟨⟨⟨hd, _⟩, _⟩, _⟩ := hb
    exact ⟨by simp [List.takeWhile_cons, hd], by simp [List.dropWhile_cons, hd]⟩

theorem natDigits_zero : natDigits 0 = ['0'] := rfl

theorem parseNatTok_natDigits (m : Nat) (rest : List Char) (hb : numBoundary rest = true) :
    parseNatTok (natDigits m ++ rest) = some (m, rest) := by
  obtain ⟨htake, hdrop⟩ := numBoundary_take_drop rest hb
  have hrest : ∀ c ∈ rest.take 1, ¬(c = '.' ∨ c = 'e' ∨ c = 'E') := by
    intro c hc
    cases rest with
    | nil => simp at hc
    | cons c2 rt =>
      simp only [List.take, List.mem_singleton] at hc
      subst hc
      simp only [numBoundary, Bool.not_eq_true', Bool.or_eq_false_iff] at hb
      obtain ⟨⟨⟨_, h1⟩, h2⟩, h3⟩ := hb
      simp only [decide_eq_false_iff_not] at h1 h2 h3
      rintro (h | h | h) <;> [exact h1 h; exact h2 h; exact h3 h]
  unfold parseNatTok
  rw [takeWhile_append_all _ _ _ (natDigits_digits m),
    dropWhile_append_all _ _ _ (natDigits_digits m), htake, hdrop, List.append_nil]
  cases hnd : natDigits m with
  | nil => exact absurd hnd (natDigits_ne_nil m)
  | cons d t =>
    cases t with
    | nil =>
      cases rest with
      | nil =>
        simp only []
        rw [← hnd, natDigits_val]
      | cons c rt =>
        simp only []
        rw [if_neg (hrest c (by simp [List.take])), ← hnd, natDigits_val]
    | cons d2 t2 =>
      have hm : 1 ≤ m := by
        by_contra hm0
        have : m = 0 := by omega
        subst this
        rw [natDigits_zero] at hnd
        exact List.noConfusion (List.cons.inj hnd).2
      obtain ⟨d', t', hdt', _, hd0⟩ := natDigits_head_pos m hm
      rw [hnd] at hdt'
      have hdd : d = d' := (List.cons.inj hdt').1
      simp only []
      rw [if_neg (hdd ▸ hd0)]
      cases rest with
      | nil =>
        simp only []
        rw [← hnd, natDigits_val]
      | cons c rt =>
        simp only []
        rw [if_neg (hrest c (by simp [List.take])), ← hnd, natDigits_val]

theorem parseIntTok_intChars (n : Int) (rest : List Char) (hb : numBoundary rest = true) :
    parseIntTok (intChars n ++ rest) = some (n, rest) := by
  cases n with
  | ofNat m =>
    obtain ⟨d, t, hdt, hd⟩ := natDigits_head m
    simp only [intChars]
    rw [parseIntTok.eq_def]
    split
    · rename_i heq
      rw [hdt] at heq
      exact absurd (List.cons.inj heq).1 (digit_ne d hd '-' (by decide))
    · rw [parseNatTok_natDigits m rest hb]
      rfl
  | negSucc m =>
    simp only [intChars, List.cons_append]
    rw [parseIntTok.eq_def]
    split
    · rename_i heq
      rw [← (List.cons.inj heq).2, parseNatTok_natDigits (m + 1) rest hb]
      simp [Int.negSucc_eq]
    · rename_i hne
      exact absurd rfl (hne (natDigits (m + 1) ++ rest))

theorem lookupField_none_keys : ∀ (r : List (String × JSValue)) (k : String),
    lookupField r k = none → ∀ p ∈ r, p.1 ≠ k
  | [], _, _, p, hp => by simp at hp
  | (k2, v2) :: rest, k, h, p, hp => by
    simp only [lookupField] at h
    by_cases hk : k2 = k
    · rw [if_pos hk] at h
      exact Option.noConfusion h
    · rw [if_neg hk] at h
      rcases List.mem_cons.mp hp with hp | hp
      · subst hp
        exact hk
      · exact lookupField_none_keys rest k h p hp

theorem setField_fresh : ∀ (acc : List (String × JSValue)) (k : String) (v : JSValue),
    lookupField acc k = none → setField acc k v = acc ++ [(k, v)]
  | [], _, _, _ => rfl
  | (k2, v2) :: rest, k, v, h => by
    simp only [lookupField] at h
    by_cases hk : k2 = k
    · rw [if_pos hk] at h
      exact Option.noConfusion h
    · rw [if_neg hk] at h
      simp only [setField, if_neg hk, List.cons_append]
      rw [setField_fresh rest k v h]

theorem lookupField_append_none : ∀ (acc : List (String × JSValue)) (k k2 : String)
    (v : JSValue), lookupField acc k2 = none → k ≠ k2 →
    lookupField (acc ++ [(k, v)]) k2 = none
  | [], k, k2, v, _, hne => by simp [lookupField, hne]
  | (k3, v3) :: rest, k, k2, v, h, hne => by
    simp only [lookupField] at h ⊢
    by_cases hk : k3 = k2
    · rw [if_pos hk] at h
      exact Option.noConfusion h
    · rw [if_neg hk] at h ⊢
      exact lookupField_append_none rest k k2 v h hne

theorem isSome_false_none (o : Option JSValue) (h : o.isSome = false) : o = none := by
  cases o with
  | none => rfl
  | some v => simp at h

theorem foldl_setField : ∀ (ms acc : List (String × JSValue)),
    (∀ p ∈ ms, lookupField acc p.1 = none) → uniqKeysF ms = true →
    ms.foldl (fun a p => setField a p.1 p.2) acc = acc ++ ms
  | [], acc, _, _ => by simp
  | (k, v) :: r, acc, hfresh, huniq => by
    simp only [uniqKeysF, Bool.and_eq_true, Bool.not_eq_true'] at huniq
    obtain ⟨⟨hkr, _⟩, hur⟩ := huniq
    replace hkr := isSome_false_none _ hkr
    simp only [List.foldl_cons]
    rw [setField_fresh acc k v (hfresh (k, v) (List.mem_cons_self _ _))]
    rw [foldl_setField r (acc ++ [(k, v)]) ?_ hur]
    · simp
    · intro p hp
      exact lookupField_append_none acc k p.1 v (hfresh p (List.mem_cons_of_mem _ hp))
        (Ne.symm (lookupField_none_keys r k hkr p hp))

/-- On a field list whose keys are already unique, the duplicate-folding
of the object-literal reader is the identity. -/
theorem dedupFields_id (fs : List (String × JSValue)) (h : uniqKeysF fs = true) :
    dedupFields fs = fs := by
  unfold dedupFields
  rw [foldl_setField fs [] (fun p _ => rfl) h]
  rfl

theorem lookupField_setField_ne : ∀ (rest : List (String × JSValue)) (k k2 : String)
    (v : JSValue), k2 ≠ k → lookupField (setField rest k v) k2 = lookupField rest k2
  | [], k, k2, v, hne => by
    simp only [setField, lookupField]
    rw [if_neg (fun h : k = k2 => hne h.symm)]
  | (k3, v3) :: rest, k, k2, v, hne => by
    simp only [setField]
    by_cases hk : k3 = k
    · rw [if_pos hk]
      simp only [lookupField]
      rw [if_neg (fun h : k3 = k2 => hne (h ▸ hk)), if_neg (fun h : k3 = k2 => hne (h ▸ hk))]
    · rw [if_neg hk]
      simp only [lookupField]
      by_cases hk2 : k3 = k2
      · rw [if_pos hk2, if_pos hk2]
      · rw [if_neg hk2, if_neg hk2]
        exact lookupField_setField_ne rest k k2 v hne

theorem setField_uniq : ∀ (acc : List (String × JSValue)) (k : String) (v : JSValue),
    uniqKeysF acc = true → uniqKeysV v = true → uniqKeysF (setField acc k v) = true
  | [], k, v, _, hv => by simp [setField, uniqKeysF, lookupField, hv]
  | (k2, v2) :: rest, k, v, hacc, hv => by
    simp only [uniqKeysF, Bool.and_eq_true] at hacc
    obtain ⟨⟨hk2r, hv2⟩, hur⟩ := hacc
    simp only [setField]
    by_cases hk : k2 = k
    · rw [if_pos hk]
      simp only [uniqKeysF, Bool.and_eq_true]
      exact ⟨⟨hk2r, hv⟩, hur⟩
    · rw [if_neg hk]
      simp only [uniqKeysF, Bool.and_eq_true]
      refine ⟨⟨?_, hv2⟩, setField_uniq rest k v hur hv⟩
      simp only [Bool.not_eq_true'] at hk2r ⊢
      rw [lookupField_setField_ne rest k k2 v hk]
      exact hk2r

theorem foldl_setField_uniq : ∀ (ms acc : List (String × JSValue)),
    uniqKeysF acc = true → (∀ p ∈ ms, uniqKeysV p.2 = true) →
    uniqKeysF (ms.foldl (fun a p => setField a p.1 p.2) acc) = true
  | [], acc, hacc, _ => hacc
  | (k, v) :: r, acc, hacc, hvals => by
    simp only [List.foldl_cons]
    exact foldl_setField_uniq r _
      (setField_uniq acc k v hacc (hvals (k, v) (List.mem_cons_self _ _)))
      (fun p hp => hvals p (List.mem_cons_of_mem _ hp))

/-- The object-literal reader always delivers a duplicate-free field list
when the member values are themselves duplicate-free. -/
theorem dedupFields_uniq (ms : List (String × JSValue))
    (h : ∀ p ∈ ms, uniqKeysV p.2 = true) : uniqKeysF (dedupFields ms) = true :=
  foldl_setField_uniq ms [] rfl h

/-- Every value the fuel-indexed reader produces is recursively
duplicate-free in its object keys: the invariant of `JSON.parse` output. -/
theorem parse_uniq : ∀ f : Nat,
    (∀ cs v r, parseV f cs = some (v, r) → uniqKeysV v = true) ∧
    (∀ cs vs r, parseElems f cs = some (vs, r) → uniqKeysL vs = true) ∧
    (∀ cs ms r, parseMembers f cs = some (ms, r) → ∀ p ∈ ms, uniqKeysV p.2 = true)
  | 0 =>
    ⟨fun cs v r h => by simp [parseV] at h,
     fun cs vs r h => by simp [parseElems] at h,
     fun cs ms r h => by simp [parseMembers] at h⟩
  | f + 1 => by
    obtain ⟨ihV, ihE, ihM⟩ := parse_uniq f
    refine ⟨?_, ?_, ?_⟩
    · intro cs v r h
      simp only [parseV] at h
      split at h
      · exact Option.noConfusion h
      · split at h
        · split at h
          · obtain ⟨h1, _⟩ := Prod.mk.inj (Option.some.inj h)
            exact h1 ▸ rfl
          · exact Option.noConfusion h
        · split at h
          · split at h
            · obtain ⟨h1, _⟩ := Prod.mk.inj (Option.some.inj h)
              exact h1 ▸ rfl
            · exact Option.noConfusion h
          · split at h
            · split at h
              · obtain ⟨h1, _⟩ := Prod.mk.inj (Option.some.inj h)
                exact h1 ▸ rfl
              · exact Option.noConfusion h
            · split at h
              · obtain ⟨⟨cs2, r2⟩, _, heq⟩ := Option.map_eq_some'.mp h
                obtain ⟨h1, _⟩ := Prod.mk.inj heq
                exact h1 ▸ rfl
              · split at h
                · split at h
                  · obtain ⟨h1, _⟩ := Prod.mk.inj (Option.some.inj h)
                    exact h1 ▸ rfl
                  · obtain ⟨⟨vs, r2⟩, hp, heq⟩ := Option.map_eq_some'.mp h
                    obtain ⟨h1, _⟩ := Prod.mk.inj heq
                    exact h1 ▸ (show uniqKeysV (.arr vs) = true from ihE _ _ _ hp)
                · split at h
                  · split at h
                    · obtain ⟨h1, _⟩ := Prod.mk.inj (Option.some.inj h)
                      exact h1 ▸ rfl
                    · obtain ⟨⟨ms, r2⟩, hp, heq⟩ := Option.map_eq_some'.mp h
                      obtain ⟨h1, _⟩ := Prod.mk.inj heq
                      exact h1 ▸ (show uniqKeysV (.obj (dedupFields ms)) = true from
                        dedupFields_uniq ms (ihM _ _ _ hp))
                  · split at h
                    · obtain ⟨⟨n, r2⟩, _, heq⟩ := Option.map_eq_some'.mp h
                      obtain ⟨h1, _⟩ := Prod.mk.inj heq
                      exact h1 ▸ rfl
                    · exact Option.noConfusion h
    · intro cs vs r h
      simp only [parseElems] at h
      obtain ⟨⟨v1, r1⟩, hpv, h⟩ := Option.bind_eq_some.mp h
      split at h
      · obtain ⟨⟨vs2, r3⟩, hpe, heq⟩ := Option.bind_eq_some.mp h
        obtain ⟨h1, _⟩ := Prod.mk.inj (Option.some.inj heq)
        refine h1 ▸ (show uniqKeysL (v1 :: vs2) = true from ?_)
        simp only [uniqKeysL, Bool.and_eq_true]
        exact ⟨ihV _ _ _ hpv, ihE _ _ _ hpe⟩
      · obtain ⟨h1, _⟩ := Prod.mk.inj (Option.some.inj h)
        refine h1 ▸ (show uniqKeysL [v1] = true from ?_)
        simp only [uniqKeysL, Bool.and_eq_true]
        exact ⟨ihV _ _ _ hpv, trivial⟩
      · exact Option.noConfusion h
    · intro cs ms r h
      simp only [parseMembers] at h
      split at h
      · obtain ⟨⟨kcs, r1⟩, _, h⟩ := Option.bind_eq_some.mp h
        split at h
        · obtain ⟨⟨v1, r3⟩, hpv, h⟩ := Option.bind_eq_some.mp h
          split at h
          · obtain ⟨⟨ms2, r5⟩, hpm, heq⟩ := Option.bind_eq_some.mp h
            obtain ⟨h1, _⟩ := Prod.mk.inj (Option.some.inj heq)
            intro p hp
            rw [← h1] at hp
            rcases List.mem_cons.mp hp with hp | hp
            · subst hp
              exact ihV _ _ _ hpv
            · exact ihM _ _ _ hpm p hp
          · obtain ⟨h1, _⟩ := Prod.mk.inj (Option.some.inj h)
            intro p hp
            rw [← h1] at hp
            rcases List.mem_cons.mp hp with hp | hp
            · subst hp
              exact ihV _ _ _ hpv
            · simp at hp
          · exact Option.noConfusion h
        · exact Option.noConfusion h
      · exact Option.noConfusion h

theorem wsOnly_append (a b : List Char) (ha : wsOnly a = true) (hb : wsOnly b = true) :
    wsOnly (a ++ b) = true := by
  simp only [wsOnly, List.all_append, Bool.and_eq_true]
  exact ⟨ha, hb⟩

theorem uniqKeysF_values : ∀ (fs : List (String × JSValue)), uniqKeysF fs = true →
    ∀ p ∈ fs, uniqKeysV p.2 = true
  | [], _, p, hp => by simp at hp
  | (k, v) :: r, h, p, hp => by
    simp only [uniqKeysF, Bool.and_eq_true] at h
    rcases List.mem_cons.mp hp with hp | hp
    · subst hp
      exact h.1.2
    · exact uniqKeysF_values r h.2 p hp

theorem parseV_ws (f : Nat) (W cs : List Char) (h : wsOnly W = true) :
    parseV f (W ++ cs) = parseV f cs := by
  cases f with
  | zero => rfl
  | succ f =>
    simp only [parseV]
    rw [skipWs_append_ws W cs h]

theorem skipWs_ws_cons (W : List Char) (c : Char) (l : List Char)
    (hW : wsOnly W = true) (hc : isWsJson c = false) :
    skipWs (W ++ c :: l) = c :: l := by
  rw [skipWs_append_ws W _ hW, skipWs_cons_nonws c l hc]

/-- After whitespace, a rendered element list starts with a value-start
character: it can never be mistaken for a closing bracket. -/
theorem skipWs_elems_head (gap ind : List Char) (x : JSValue) (r : List JSValue)
    (Z : List Char) (hind : wsOnly ind = true) (b : Char) (Y : List Char)
    (heq : skipWs (joinSep [',', '\n']
      ((printL gap ind (x :: r)).map (fun p => ind ++ p)) ++ Z) = b :: Y) :
    valueStartChar b = true := by
  obtain ⟨c0, t0, hct, hcs⟩ := printV_cons gap ind x
  cases r with
  | nil =>
    simp only [printL, List.map, joinSep] at heq
    rw [List.append_assoc, skipWs_append_ws ind _ hind, hct, List.cons_append,
      skipWs_cons_nonws _ _ (valueStart_not_ws c0 hcs)] at heq
    exact (List.cons.inj heq).1 ▸ hcs
  | cons y r2 =>
    simp only [printL, List.map, joinSep, List.append_assoc] at heq
    rw [skipWs_append_ws ind _ hind, hct, List.cons_append,
      skipWs_cons_nonws _ _ (valueStart_not_ws c0 hcs)] at heq
    exact (List.cons.inj heq).1 ▸ hcs

/-- After whitespace, a rendered member list starts with the opening quote
of its first key. -/
theorem skipWs_members_head (gap ind : List Char) (m : String × JSValue)
    (r : List (String × JSValue)) (Z : List Char) (hind : wsOnly ind = true)
    (b : Char) (Y : List Char)
    (heq : skipWs (joinSep [',', '\n']
      ((printF gap ind (m :: r)).map (fun p => ind ++ p)) ++ Z) = b :: Y) :
    b = '"' := by
  obtain ⟨k, v⟩ := m
  cases r with
  | nil =>
    simp only [printF, List.map, joinSep, quoteChars, List.append_assoc] at heq
    rw [skipWs_append_ws ind _ hind, List.cons_append,
      skipWs_cons_nonws _ _ (by decide)] at heq
    exact ((List.cons.inj heq).1).symm
  | cons m2 r2 =>
    simp only [printF, List.map, joinSep, quoteChars, List.append_assoc] at heq
    rw [skipWs_append_ws ind _ hind, List.cons_append,
      skipWs_cons_nonws _ _ (by decide)] at heq
    exact ((List.cons.inj heq).1).symm

/-- A rendered string literal parses back to the same string. -/
theorem parseV_print_str (g : Nat) (gap ind rest : List Char) (s : String) :
    parseV (g + 1) (printV gap ind (.str s) ++ rest) = some (.str s, rest) := by
  have hq : printV gap ind (.str s) ++ rest =
      '"' :: (escapeChars s.data ++ ('"' :: rest)) := by
    simp [printV, quoteChars, List.append_assoc]
  rw [hq]
  simp only [parseV]
  rw [skipWs_cons_nonws _ _ (by decide)]
  show (parseStr (escapeChars s.data ++ ('"' :: rest))).map
      (fun p => (JSValue.str (String.mk p.1), p.2)) = some (.str s, rest)
  rw [parseStr_escape]
  rfl

/-- A rendered integer parses back to the same number when the following
text cannot extend the token. -/
theorem parseV_print_num (g : Nat) (gap ind rest : List Char) (n : Int)
    (hb : numBoundary rest = true) :
    parseV (g + 1) (printV gap ind (.num n) ++ rest) = some (.num n, rest) := by
  cases n with
  | ofNat m =>
    obtain ⟨d, t, hdt, hd⟩ := natDigits_head m
    have hich : intChars (Int.ofNat m) = d :: t := by simp [intChars, hdt]
    have hni : printV gap ind (.num (Int.ofNat m)) ++ rest = d :: (t ++ rest) := by
      show intChars (Int.ofNat m) ++ rest = d :: (t ++ rest)
      rw [hich]
      simp
    rw [hni]
    simp only [parseV]
    rw [skipWs_cons_nonws _ _ (digit_not_ws d hd)]
    simp only []
    rw [if_neg (digit_ne d hd 'n' (by decide)), if_neg (digit_ne d hd 't' (by decide)),
      if_neg (digit_ne d hd 'f' (by decide)), if_neg (digit_ne d hd '"' (by decide)),
      if_neg (digit_ne d hd '[' (by decide)), if_neg (digit_ne d hd '\x7b' (by decide)),
      if_pos (Or.inr hd)]
    rw [show d :: (t ++ rest) = intChars (Int.ofNat m) ++ rest from by
      rw [hich]
      simp]
    rw [parseIntTok_intChars _ _ hb]
    rfl
  | negSucc m =>
    have hni : printV gap ind (.num (Int.negSucc m)) ++ rest =
        '-' :: (natDigits (m + 1) ++ rest) := by
      simp [printV, intChars]
    rw [hni]
    simp only [parseV]
    rw [skipWs_cons_nonws _ _ (by decide)]
    show (parseIntTok ('-' :: (natDigits (m + 1) ++ rest))).map
        (fun p => (JSValue.num p.1, p.2)) = some (.num (Int.negSucc m), rest)
    rw [show ('-' :: (natDigits (m + 1) ++ rest)) = intChars (Int.negSucc m) ++ rest from by
      simp [intChars]]
    rw [parseIntTok_intChars _ _ hb]
    rfl

/-- The literal `null` parses back from its rendering. -/
theorem parseV_print_null (g : Nat) (gap ind rest : List Char) :
    parseV (g + 1) (printV gap ind .null ++ rest) = some (.null, rest) := by
  rw [show printV gap ind .null ++ rest = 'n' :: 'u' :: 'l' :: 'l' :: rest from rfl]
  simp only [parseV]
  rw [skipWs_cons_nonws _ _ (by decide)]
  dsimp only
  rw [show (['u', 'l', 'l'] : List Char).isPrefixOf ('u' :: 'l' :: 'l' :: rest) = true from by
    simp [List.isPrefixOf]]
  rfl

/-- The literal `true` parses back from its rendering. -/
theorem parseV_print_true (g : Nat) (gap ind rest : List Char) :
    parseV (g + 1) (printV gap ind (.bool true) ++ rest) = some (.bool true, rest) := by
  rw [show printV gap ind (.bool true) ++ rest = 't' :: 'r' :: 'u' :: 'e' :: rest from rfl]
  simp only [parseV]
  rw [skipWs_cons_nonws _ _ (by decide)]
  dsimp only
  rw [show (['r', 'u', 'e'] : List Char).isPrefixOf ('r' :: 'u' :: 'e' :: rest) = true from by
    simp [List.isPrefixOf]]
  rfl

/-- The literal `false` parses back from its rendering. -/
theorem parseV_print_false (g : Nat) (gap ind rest : List Char) :
    parseV (g + 1) (printV gap ind (.bool false) ++ rest) = some (.bool false, rest) := by
  rw [show printV gap ind (.bool false) ++ rest = 'f' :: 'a' :: 'l' :: 's' :: 'e' :: rest from rfl]
  simp only [parseV]
  rw [skipWs_cons_nonws _ _ (by decide)]
  dsimp only
  rw [show (['a', 'l', 's', 'e'] : List Char).isPrefixOf ('a' :: 'l' :: 's' :: 'e' :: rest) = true from by
    simp [List.isPrefixOf]]
  rfl

/-- The empty array parses back from its rendering. -/
theorem parseV_print_arrnil (g : Nat) (gap ind rest : List Char) :
    parseV (g + 1) (printV gap ind (.arr []) ++ rest) = some (.arr [], rest) := by
  rw [show printV gap ind (.arr []) ++ rest = '[' :: ']' :: rest from rfl]
  simp only [parseV]
  rw [skipWs_cons_nonws _ _ (by decide)]
  dsimp only
  rw [skipWs_cons_nonws _ _ (by decide)]
  rfl

/-- The empty object parses back from its rendering. -/
theorem parseV_print_objnil (g : Nat) (gap ind rest : List Char) :
    parseV (g + 1) (printV gap ind (.obj []) ++ rest) = some (.obj [], rest) := by
  rw [show printV gap ind (.obj []) ++ rest = '\x7b' :: '\x7d' :: rest from rfl]
  simp only [parseV]
  rw [skipWs_cons_nonws _ _ (by decide)]
  dsimp only
  rw [skipWs_cons_nonws _ _ (by decide)]
  rfl

theorem uniqKeysV_arr (xs : List JSValue) : uniqKeysV (.arr xs) = uniqKeysL xs := by
  simp [uniqKeysV]

theorem uniqKeysV_obj (fs : List (String × JSValue)) : uniqKeysV (.obj fs) = uniqKeysF fs := by
  simp [uniqKeysV]

theorem uniqKeysL_cons (x : JSValue) (r : List JSValue) :
    uniqKeysL (x :: r) = (uniqKeysV x && uniqKeysL r) := by
  simp [uniqKeysL]

theorem jsize_arr (xs : List JSValue) : jsize (.arr xs) = 1 + jsizeL xs := by
  simp [jsize]

theorem jsize_obj (fs : List (String × JSValue)) : jsize (.obj fs) = 1 + jsizeF fs := by
  simp [jsize]

theorem jsizeL_cons (x : JSValue) (r : List JSValue) :
    jsizeL (x :: r) = jsize x + jsizeL r := by
  simp [jsizeL]

theorem jsizeL_nil : jsizeL [] = 0 := by simp [jsizeL]

theorem jsizeF_cons (k : String) (v : JSValue) (r : List (String × JSValue)) :
    jsizeF ((k, v) :: r) = jsize v + jsizeF r := by
  simp [jsizeF]

theorem jsizeF_nil : jsizeF [] = 0 := by simp [jsizeF]

theorem wsOnly_cons (c : Char) (l : List Char) (hc : isWsJson c = true)
    (hl : wsOnly l = true) : wsOnly (c :: l) = true := by
  simp [wsOnly, List.all_cons, hc]
  simpa [wsOnly] using hl

/-- A rendered nonempty array parses back, given the element-list reader
behaves on one less fuel. -/
theorem parseV_print_arr (g : Nat)
    (ihE : ∀ (gap ind indC : List Char) (x : JSValue) (r : List JSValue) (rest W : List Char),
      wsOnly gap = true → gap.isEmpty = false → wsOnly ind = true → wsOnly indC = true →
      wsOnly W = true → uniqKeysL (x :: r) = true → 2 * jsizeL (x :: r) + 1 ≤ g →
      parseElems g (W ++ (joinSep [',', '\n'] ((printL gap ind (x :: r)).map (fun p => ind ++ p)) ++
        ('\n' :: (indC ++ (']' :: rest))))) = some (x :: r, rest))
    (gap ind : List Char) (x : JSValue) (r : List JSValue) (rest : List Char)
    (hg : wsOnly gap = true) (hgne : gap.isEmpty = false) (hi : wsOnly ind = true)
    (hu : uniqKeysV (.arr (x :: r)) = true) (hf : 2 * jsize (.arr (x :: r)) ≤ g + 1) :
    parseV (g + 1) (printV gap ind (.arr (x :: r)) ++ rest) = some (.arr (x :: r), rest) := by
  have hpr : printV gap ind (.arr (x :: r)) ++ rest =
      '[' :: '\n' :: (joinSep [',', '\n'] ((printL gap (ind ++ gap) (x :: r)).map
        (fun p => (ind ++ gap) ++ p)) ++ ('\n' :: (ind ++ (']' :: rest)))) := by
    have h0 : printV gap ind (.arr (x :: r)) =
        if gap.isEmpty then '[' :: (joinSep [','] (printL gap ind (x :: r)) ++ [']'])
        else '[' :: '\n' ::
          (joinSep [',', '\n'] ((printL gap (ind ++ gap) (x :: r)).map
            (fun piece => ind ++ gap ++ piece)) ++ ('\n' :: ind ++ [']'])) := rfl
    rw [h0, if_neg (by simp [hgne])]
    simp [List.append_assoc]
  rw [hpr]
  simp only [parseV]
  rw [skipWs_cons_nonws _ _ (by decide)]
  dsimp only
  rw [if_neg (by decide : ¬('[' : Char) = 'n'), if_neg (by decide : ¬('[' : Char) = 't'),
    if_neg (by decide : ¬('[' : Char) = 'f'), if_neg (by decide : ¬('[' : Char) = '"'),
    if_pos (rfl : ('[' : Char) = '[')]
  split
  · rename_i r2 heq
    rw [show ('\n' :: (joinSep [',', '\n'] ((printL gap (ind ++ gap) (x :: r)).map
        (fun p => (ind ++ gap) ++ p)) ++ ('\n' :: (ind ++ (']' :: rest)))) : List Char) =
        ['\n'] ++ (joinSep [',', '\n'] ((printL gap (ind ++ gap) (x :: r)).map
        (fun p => (ind ++ gap) ++ p)) ++ ('\n' :: (ind ++ (']' :: rest)))) from rfl,
      skipWs_append_ws _ _ (by decide)] at heq
    have hv := skipWs_elems_head gap (ind ++ gap) x r _ (wsOnly_append ind gap hi hg) ']' r2 heq
    exact absurd hv (by decide)
  · have hE := ihE gap (ind ++ gap) ind x r rest ['\n'] hg hgne (wsOnly_append ind gap hi hg) hi
      (by decide) (by rw [← uniqKeysV_arr]; exact hu) (by rw [jsize_arr] at hf; omega)
    simp only [List.singleton_append] at hE
    rw [hE]
    rfl

/-- A rendered nonempty object parses back (and its duplicate-folding is
the identity), given the member-list reader behaves on one less fuel. -/
theorem parseV_print_obj (g : Nat)
    (ihM : ∀ (gap ind indC : List Char) (k : String) (v : JSValue)
      (r : List (String × JSValue)) (rest W : List Char),
      wsOnly gap = true → gap.isEmpty = false → wsOnly ind = true → wsOnly indC = true →
      wsOnly W = true → (∀ p ∈ (k, v) :: r, uniqKeysV p.2 = true) →
      2 * jsizeF ((k, v) :: r) + 1 ≤ g →
      parseMembers g (W ++ (joinSep [',', '\n'] ((printF gap ind ((k, v) :: r)).map
        (fun p => ind ++ p)) ++ ('\n' :: (indC ++ ('\x7d' :: rest))))) = some ((k, v) :: r, rest))
    (gap ind : List Char) (k : String) (v : JSValue) (r : List (String × JSValue))
    (rest : List Char)
    (hg : wsOnly gap = true) (hgne : gap.isEmpty = false) (hi : wsOnly ind = true)
    (hu : uniqKeysV (.obj ((k, v) :: r)) = true)
    (hf : 2 * jsize (.obj ((k, v) :: r)) ≤ g + 1) :
    parseV (g + 1) (printV gap ind (.obj ((k, v) :: r)) ++ rest) =
      some (.obj ((k, v) :: r), rest) := by
  have huF : uniqKeysF ((k, v) :: r) = true := by rw [← uniqKeysV_obj]; exact hu
  have hpr : printV gap ind (.obj ((k, v) :: r)) ++ rest =
      '\x7b' :: '\n' :: (joinSep [',', '\n'] ((printF gap (ind ++ gap) ((k, v) :: r)).map
        (fun p => (ind ++ gap) ++ p)) ++ ('\n' :: (ind ++ ('\x7d' :: rest)))) := by
    have h0 : printV gap ind (.obj ((k, v) :: r)) =
        if gap.isEmpty then '\x7b' :: (joinSep [','] (printF gap ind ((k, v) :: r)) ++ ['\x7d'])
        else '\x7b' :: '\n' ::
          (joinSep [',', '\n'] ((printF gap (ind ++ gap) ((k, v) :: r)).map
            (fun piece => ind ++ gap ++ piece)) ++ ('\n' :: ind ++ ['\x7d'])) := rfl
    rw [h0, if_neg (by simp [hgne])]
    simp [List.append_assoc]
  rw [hpr]
  simp only [parseV]
  rw [skipWs_cons_nonws _ _ (by decide)]
  dsimp only
  rw [if_neg (by decide : ¬('\x7b' : Char) = 'n'), if_neg (by decide : ¬('\x7b' : Char) = 't'),
    if_neg (by decide : ¬('\x7b' : Char) = 'f'), if_neg (by decide : ¬('\x7b' : Char) = '"'),
    if_neg (by decide : ¬('\x7b' : Char) = '['), if_pos (rfl : ('\x7b' : Char) = '\x7b')]
  split
  · rename_i r2 heq
    rw [show ('\n' :: (joinSep [',', '\n'] ((printF gap (ind ++ gap) ((k, v) :: r)).map
        (fun p => (ind ++ gap) ++ p)) ++ ('\n' :: (ind ++ ('\x7d' :: rest)))) : List Char) =
        ['\n'] ++ (joinSep [',', '\n'] ((printF gap (ind ++ gap) ((k, v) :: r)).map
        (fun p => (ind ++ gap) ++ p)) ++ ('\n' :: (ind ++ ('\x7d' :: rest)))) from rfl,
      skipWs_append_ws _ _ (by decide)] at heq
    have hq := skipWs_members_head gap (ind ++ gap) (k, v) r _
      (wsOnly_append ind gap hi hg) '\x7d' r2 heq
    exact absurd hq (by decide)
  · have hM := ihM gap (ind ++ gap) ind k v r rest ['\n'] hg hgne
      (wsOnly_append ind gap hi hg) hi (by decide)
      (uniqKeysF_values _ huF) (by rw [jsize_obj] at hf; omega)
    simp only [List.singleton_append] at hM
    rw [hM]
    rw [show Option.map (fun p => (JSValue.obj (dedupFields p.1), p.2))
        (some ((k, v) :: r, rest)) =
        some (.obj (dedupFields ((k, v) :: r)), rest) from rfl]
    rw [dedupFields_id _ huF]

/-- The rendered element list of a nonempty array parses back, given the
value and element readers behave on one less fuel. -/
theorem parseElems_print (g : Nat)
    (ihV : ∀ (gap ind : List Char) (v : JSValue) (rest : List Char),
      wsOnly gap = true → gap.isEmpty = false → wsOnly ind = true →
      numBoundary rest = true → uniqKeysV v = true → 2 * jsize v ≤ g →
      parseV g (printV gap ind v ++ rest) = some (v, rest))
    (ihE : ∀ (gap ind indC : List Char) (x : JSValue) (r : List JSValue) (rest W : List Char),
      wsOnly gap = true → gap.isEmpty = false → wsOnly ind = true → wsOnly indC = true →
      wsOnly W = true → uniqKeysL (x :: r) = true → 2 * jsizeL (x :: r) + 1 ≤ g →
      parseElems g (W ++ (joinSep [',', '\n'] ((printL gap ind (x :: r)).map (fun p => ind ++ p)) ++
        ('\n' :: (indC ++ (']' :: rest))))) = some (x :: r, rest))
    (gap ind indC : List Char) (x : JSValue) (r : List JSValue) (rest W : List Char)
    (hg : wsOnly gap = true) (hgne : gap.isEmpty = false) (hi : wsOnly ind = true)
    (hiC : wsOnly indC = true) (hW : wsOnly W = true)
    (hu : uniqKeysL (x :: r) = true) (hf : 2 * jsizeL (x :: r) + 1 ≤ g + 1) :
    parseElems (g + 1) (W ++ (joinSep [',', '\n']
      ((printL gap ind (x :: r)).map (fun p => ind ++ p)) ++
      ('\n' :: (indC ++ (']' :: rest))))) = some (x :: r, rest) := by
  have hux : uniqKeysV x = true := by
    rw [uniqKeysL_cons, Bool.and_eq_true] at hu
    exact hu.1
  simp only [parseElems]
  cases r with
  | nil =>
    refine Option.bind_eq_some.mpr ⟨(x, '\n' :: (indC ++ (']' :: rest))), ?_, ?_⟩
    · rw [show W ++ (joinSep [',', '\n'] ((printL gap ind [x]).map (fun p => ind ++ p)) ++
          ('\n' :: (indC ++ (']' :: rest)))) =
          (W ++ ind) ++ (printV gap ind x ++ ('\n' :: (indC ++ (']' :: rest)))) from by
        simp [printL, joinSep, List.append_assoc]]
      rw [parseV_ws g (W ++ ind) _ (wsOnly_append _ _ hW hi)]
      exact ihV gap ind x _ hg hgne hi (by rfl) hux
        (by rw [jsizeL_cons, jsizeL_nil] at hf; omega)
    · rw [show skipWs ('\n' :: (indC ++ (']' :: rest))) = ']' :: rest from by
        rw [show ('\n' :: (indC ++ (']' :: rest)) : List Char) =
            ('\n' :: indC) ++ (']' :: rest) from rfl,
          skipWs_ws_cons _ _ _ (wsOnly_cons '\n' indC (by decide) hiC) (by decide)]]
      rfl
  | cons y r2 =>
    refine Option.bind_eq_some.mpr ⟨(x, ',' :: '\n' ::
      (joinSep [',', '\n'] ((printL gap ind (y :: r2)).map (fun p => ind ++ p)) ++
        ('\n' :: (indC ++ (']' :: rest))))), ?_, ?_⟩
    · rw [show W ++ (joinSep [',', '\n'] ((printL gap ind (x :: y :: r2)).map
          (fun p => ind ++ p)) ++ ('\n' :: (indC ++ (']' :: rest)))) =
          (W ++ ind) ++ (printV gap ind x ++ (',' :: '\n' ::
            (joinSep [',', '\n'] ((printL gap ind (y :: r2)).map (fun p => ind ++ p)) ++
              ('\n' :: (indC ++ (']' :: rest)))))) from by
        simp [printL, joinSep, List.append_assoc]]
      rw [parseV_ws g (W ++ ind) _ (wsOnly_append _ _ hW hi)]
      exact ihV gap ind x _ hg hgne hi (by rfl) hux
        (by rw [jsizeL_cons, jsizeL_cons] at hf; have := jsize_pos y; omega)
    · rw [skipWs_cons_nonws _ _ (by decide)]
      refine Option.bind_eq_some.mpr ⟨(y :: r2, rest), ?_, ?_⟩
      · have hE := ihE gap ind indC y r2 rest ['\n'] hg hgne hi hiC (by decide)
          (by rw [uniqKeysL_cons, Bool.and_eq_true] at hu; exact hu.2)
          (by rw [jsizeL_cons] at hf; have := jsize_pos x; omega)
        simp only [List.singleton_append] at hE
        exact hE
      · rfl

/-- The rendered member list of a nonempty object parses back, given the
value and member readers behave on one less fuel. -/
theorem parseMembers_print (g : Nat)
    (ihV : ∀ (gap ind : List Char) (v : JSValue) (rest : List Char),
      wsOnly gap = true → gap.isEmpty = false → wsOnly ind = true →
      numBoundary rest = true → uniqKeysV v = true → 2 * jsize v ≤ g →
      parseV g (printV gap ind v ++ rest) = some (v, rest))
    (ihM : ∀ (gap ind indC : List Char) (k : String) (v : JSValue)
      (r : List (String × JSValue)) (rest W : List Char),
      wsOnly gap = true → gap.isEmpty = false → wsOnly ind = true → wsOnly indC = true →
      wsOnly W = true → (∀ p ∈ (k, v) :: r, uniqKeysV p.2 = true) →
      2 * jsizeF ((k, v) :: r) + 1 ≤ g →
      parseMembers g (W ++ (joinSep [',', '\n'] ((printF gap ind ((k, v) :: r)).map
        (fun p => ind ++ p)) ++ ('\n' :: (indC ++ ('\x7d' :: rest))))) = some ((k, v) :: r, rest))
    (gap ind indC : List Char) (k : String) (v : JSValue) (r : List (String × JSValue))
    (rest W : List Char)
    (hg : wsOnly gap = true) (hgne : gap.isEmpty = false) (hi : wsOnly ind = true)
    (hiC : wsOnly indC = true) (hW : wsOnly W = true)
    (hvals : ∀ p ∈ (k, v) :: r, uniqKeysV p.2 = true)
    (hf : 2 * jsizeF ((k, v) :: r) + 1 ≤ g + 1) :
    parseMembers (g + 1) (W ++ (joinSep [',', '\n']
      ((printF gap ind ((k, v) :: r)).map (fun p => ind ++ p)) ++
      ('\n' :: (indC ++ ('\x7d' :: rest))))) = some ((k, v) :: r, rest) := by
  have huv : uniqKeysV v = true := hvals (k, v) (List.mem_cons_self _ _)
  simp only [parseMembers]
  cases r with
  | nil =>
    rw [show skipWs (W ++ (joinSep [',', '\n']
        ((printF gap ind [(k, v)]).map (fun p => ind ++ p)) ++
        ('\n' :: (indC ++ ('\x7d' :: rest))))) =
        '"' :: (escapeChars k.data ++ ('"' :: (':' :: (' ' ::
          (printV gap ind v ++ ('\n' :: (indC ++ ('\x7d' :: rest)))))))) from by
      rw [show W ++ (joinSep [',', '\n']
          ((printF gap ind [(k, v)]).map (fun p => ind ++ p)) ++
          ('\n' :: (indC ++ ('\x7d' :: rest)))) =
          (W ++ ind) ++ ('"' :: (escapeChars k.data ++ ('"' :: (':' :: (' ' ::
            (printV gap ind v ++ ('\n' :: (indC ++ ('\x7d' :: rest))))))))) from by
        simp [printF, joinSep, quoteChars, hgne, List.append_assoc],
        skipWs_ws_cons _ _ _ (wsOnly_append _ _ hW hi) (by decide)]]
    refine Option.bind_eq_some.mpr ⟨(k.data, ':' :: (' ' ::
      (printV gap ind v ++ ('\n' :: (indC ++ ('\x7d' :: rest)))))),
      parseStr_escape _ _, ?_⟩
    rw [skipWs_cons_nonws _ _ (by decide)]
    refine Option.bind_eq_some.mpr ⟨(v, '\n' :: (indC ++ ('\x7d' :: rest))), ?_, ?_⟩
    · rw [show (' ' :: (printV gap ind v ++ ('\n' :: (indC ++ ('\x7d' :: rest)))) : List Char) =
          [' '] ++ (printV gap ind v ++ ('\n' :: (indC ++ ('\x7d' :: rest)))) from rfl,
        parseV_ws g [' '] _ (by decide)]
      exact ihV gap ind v _ hg hgne hi (by rfl) huv
        (by rw [jsizeF_cons, jsizeF_nil] at hf; omega)
    · rw [show skipWs ('\n' :: (indC ++ ('\x7d' :: rest))) = '\x7d' :: rest from by
        rw [show ('\n' :: (indC ++ ('\x7d' :: rest)) : List Char) =
            ('\n' :: indC) ++ ('\x7d' :: rest) from rfl,
          skipWs_ws_cons _ _ _ (wsOnly_cons '\n' indC (by decide) hiC) (by decide)]]
      rfl
  | cons m2 r2 =>
    obtain ⟨k2, v2⟩ := m2
    rw [show skipWs (W ++ (joinSep [',', '\n']
        ((printF gap ind ((k, v) :: (k2, v2) :: r2)).map (fun p => ind ++ p)) ++
        ('\n' :: (indC ++ ('\x7d' :: rest))))) =
        '"' :: (escapeChars k.data ++ ('"' :: (':' :: (' ' ::
          (printV gap ind v ++ (',' :: '\n' :: (joinSep [',', '\n']
            ((printF gap ind ((k2, v2) :: r2)).map (fun p => ind ++ p)) ++
            ('\n' :: (indC ++ ('\x7d' :: rest)))))))))) from by
      rw [show W ++ (joinSep [',', '\n']
          ((printF gap ind ((k, v) :: (k2, v2) :: r2)).map (fun p => ind ++ p)) ++
          ('\n' :: (indC ++ ('\x7d' :: rest)))) =
          (W ++ ind) ++ ('"' :: (escapeChars k.data ++ ('"' :: (':' :: (' ' ::
            (printV gap ind v ++ (',' :: '\n' :: (joinSep [',', '\n']
              ((printF gap ind ((k2, v2) :: r2)).map (fun p => ind ++ p)) ++
              ('\n' :: (indC ++ ('\x7d' :: rest))))))))))) from by
        simp [printF, joinSep, quoteChars, hgne, List.append_assoc],
        skipWs_ws_cons _ _ _ (wsOnly_append _ _ hW hi) (by decide)]]
    refine Option.bind_eq_some.mpr ⟨(k.data, ':' :: (' ' ::
      (printV gap ind v ++ (',' :: '\n' :: (joinSep [',', '\n']
        ((printF gap ind ((k2, v2) :: r2)).map (fun p => ind ++ p)) ++
        ('\n' :: (indC ++ ('\x7d' :: rest)))))))),
      parseStr_escape _ _, ?_⟩
    rw [skipWs_cons_nonws _ _ (by decide)]
    refine Option.bind_eq_some.mpr ⟨(v, ',' :: '\n' :: (joinSep [',', '\n']
      ((printF gap ind ((k2, v2) :: r2)).map (fun p => ind ++ p)) ++
      ('\n' :: (indC ++ ('\x7d' :: rest))))), ?_, ?_⟩
    · rw [show (' ' :: (printV gap ind v ++ (',' :: '\n' :: (joinSep [',', '\n']
          ((printF gap ind ((k2, v2) :: r2)).map (fun p => ind ++ p)) ++
          ('\n' :: (indC ++ ('\x7d' :: rest)))))) : List Char) =
          [' '] ++ (printV gap ind v ++ (',' :: '\n' :: (joinSep [',', '\n']
            ((printF gap ind ((k2, v2) :: r2)).map (fun p => ind ++ p)) ++
            ('\n' :: (indC ++ ('\x7d' :: rest)))))) from rfl,
        parseV_ws g [' '] _ (by decide)]
      exact ihV gap ind v _ hg hgne hi (by rfl) huv
        (by rw [jsizeF_cons, jsizeF_cons] at hf; have := jsize_pos v2; omega)
    · rw [skipWs_cons_nonws _ _ (by decide)]
      refine Option.bind_eq_some.mpr ⟨((k2, v2) :: r2, rest), ?_, ?_⟩
      · have hM := ihM gap ind indC k2 v2 r2 rest ['\n'] hg hgne hi hiC (by decide)
          (fun p hp => hvals p (List.mem_cons_of_mem _ hp))
          (by rw [jsizeF_cons] at hf; have := jsize_pos v; omega)
        simp only [List.singleton_append] at hM
        exact hM
      · rfl

/-- Round-trip at every sufficient fuel: a rendered value (pretty mode,
whitespace-only gap and indentation) parses back to exactly itself with
the trailing input untouched, and likewise for rendered element and
member lists. -/
theorem parse_print_fuel : ∀ f : Nat,
    (∀ (gap ind : List Char) (v : JSValue) (rest : List Char),
      wsOnly gap = true → gap.isEmpty = false → wsOnly ind = true →
      numBoundary rest = true → uniqKeysV v = true → 2 * jsize v ≤ f →
      parseV f (printV gap ind v ++ rest) = some (v, rest)) ∧
    (∀ (gap ind indC : List Char) (x : JSValue) (r : List JSValue) (rest W : List Char),
      wsOnly gap = true → gap.isEmpty = false → wsOnly ind = true → wsOnly indC = true →
      wsOnly W = true → uniqKeysL (x :: r) = true → 2 * jsizeL (x :: r) + 1 ≤ f →
      parseElems f (W ++ (joinSep [',', '\n'] ((printL gap ind (x :: r)).map (fun p => ind ++ p)) ++
        ('\n' :: (indC ++ (']' :: rest))))) = some (x :: r, rest)) ∧
    (∀ (gap ind indC : List Char) (k : String) (v : JSValue)
      (r : List (String × JSValue)) (rest W : List Char),
      wsOnly gap = true → gap.isEmpty = false → wsOnly ind = true → wsOnly indC = true →
      wsOnly W = true → (∀ p ∈ (k, v) :: r, uniqKeysV p.2 = true) →
      2 * jsizeF ((k, v) :: r) + 1 ≤ f →
      parseMembers f (W ++ (joinSep [',', '\n'] ((printF gap ind ((k, v) :: r)).map
        (fun p => ind ++ p)) ++ ('\n' :: (indC ++ ('\x7d' :: rest))))) = some ((k, v) :: r, rest))
  | 0 => by
    refine ⟨?_, ?_, ?_⟩
    · intro gap ind v rest _ _ _ _ _ hf
      have := jsize_pos v
      omega
    · intro gap ind indC x r rest W _ _ _ _ _ _ hf
      omega
    · intro gap ind indC k v r rest W _ _ _ _ _ _ hf
      omega
  | g + 1 => by
    obtain ⟨ihV, ihE, ihM⟩ := parse_print_fuel g
    refine ⟨?_, ?_, ?_⟩
    · intro gap ind v rest hg hgne hi hb hu hf
      cases v with
      | null => exact parseV_print_null g gap ind rest
      | bool b =>
        cases b
        · exact parseV_print_false g gap ind rest
        · exact parseV_print_true g gap ind rest
      | num n => exact parseV_print_num g gap ind rest n hb
      | str s => exact parseV_print_str g gap ind rest s
      | arr xs =>
        cases xs with
        | nil => exact parseV_print_arrnil g gap ind rest
        | cons x r => exact parseV_print_arr g ihE gap ind x r rest hg hgne hi hu hf
      | obj fs =>
        cases fs with
        | nil => exact parseV_print_objnil g gap ind rest
        | cons m r =>
          obtain ⟨k, v⟩ := m
          exact parseV_print_obj g ihM gap ind k v r rest hg hgne hi hu hf
    · intro gap ind indC x r rest W hg hgne hi hiC hW hu hf
      exact parseElems_print g ihV ihE gap ind indC x r rest W hg hgne hi hiC hW hu hf
    · intro gap ind indC k v r rest W hg hgne hi hiC hW hv hf
      exact parseMembers_print g ihV ihM gap ind indC k v r rest W hg hgne hi hiC hW hv hf

theorem elems_len (N : Nat)
    (IH : ∀ (gap ind : List Char) (v : JSValue), gap.isEmpty = false → jsize v ≤ N →
      2 * jsize v ≤ (printV gap ind v).length + 1) :
    ∀ (r : List JSValue) (x : JSValue) (gap ind : List Char), gap.isEmpty = false →
      jsizeL (x :: r) ≤ N →
      2 * jsizeL (x :: r) ≤
        (joinSep [',', '\n'] ((printL gap ind (x :: r)).map (fun p => ind ++ p))).length + 1
  | [], x, gap, ind, hgne, h => by
    rw [jsizeL_cons, jsizeL_nil] at h ⊢
    have hx := IH gap ind x hgne (by omega)
    simp only [printL, List.map, joinSep, List.length_append]
    omega
  | y :: r2, x, gap, ind, hgne, h => by
    rw [jsizeL_cons, jsizeL_cons] at h ⊢
    have hx := IH gap ind x hgne (by omega)
    have hr := elems_len N IH r2 y gap ind hgne (by rw [jsizeL_cons]; omega)
    rw [jsizeL_cons] at hr
    simp only [printL, List.map, joinSep, List.length_append, List.length_cons] at hr ⊢
    omega

theorem members_len (N : Nat)
    (IH : ∀ (gap ind : List Char) (v : JSValue), gap.isEmpty = false → jsize v ≤ N →
      2 * jsize v ≤ (printV gap ind v).length + 1) :
    ∀ (r : List (String × JSValue)) (k : String) (v : JSValue) (gap ind : List Char),
      gap.isEmpty = false → jsizeF ((k, v) :: r) ≤ N →
      2 * jsizeF ((k, v) :: r) ≤
        (joinSep [',', '\n'] ((printF gap ind ((k, v) :: r)).map (fun p => ind ++ p))).length + 1
  | [], k, v, gap, ind, hgne, h => by
    rw [jsizeF_cons, jsizeF_nil] at h ⊢
    have hv := IH gap ind v hgne (by omega)
    simp only [printF, List.map, joinSep, hgne, quoteChars, List.length_append,
      List.length_cons, if_neg (by simp [hgne] : ¬gap.isEmpty = true)]
    omega
  | (k2, v2) :: r2, k, v, gap, ind, hgne, h => by
    rw [jsizeF_cons, jsizeF_cons] at h ⊢
    have hv := IH gap ind v hgne (by omega)
    have hr := members_len N IH r2 k2 v2 gap ind hgne (by rw [jsizeF_cons]; omega)
    rw [jsizeF_cons] at hr
    simp only [printF, List.map, joinSep, quoteChars, List.length_append, List.length_cons,
      if_neg (by simp [hgne] : ¬gap.isEmpty = true)] at hr ⊢
    omega

/-- The rendered text is long enough: the strict reader's fuel of length
plus one covers twice the structural size. -/
theorem printed_len : ∀ (N : Nat) (gap ind : List Char) (v : JSValue),
    gap.isEmpty = false → jsize v ≤ N → 2 * jsize v ≤ (printV gap ind v).length + 1
  | 0, gap, ind, v, _, h => by
    have := jsize_pos v
    omega
  | N + 1, gap, ind, v, hgne, h => by
    cases v with
    | null =>
      rw [show printV gap ind .null = "null".data from rfl]
      decide
    | bool b =>
      cases b
      · rw [show printV gap ind (.bool false) = "false".data from rfl]
        decide
      · rw [show printV gap ind (.bool true) = "true".data from rfl]
        decide
    | num n =>
      have hne : printV gap ind (.num n) ≠ [] := by
        show intChars n ≠ []
        cases n with
        | ofNat m => exact natDigits_ne_nil m
        | negSucc m => simp [intChars]
      have hpos : 1 ≤ (printV gap ind (.num n)).length := by
        cases hl : printV gap ind (.num n) with
        | nil => exact absurd hl hne
        | cons a l => simp
      have : jsize (.num n) = 1 := rfl
      omega
    | str s =>
      have : jsize (.str s) = 1 := rfl
      rw [show printV gap ind (.str s) = quoteChars s from rfl]
      simp only [quoteChars, List.length_cons]
      omega
    | arr xs =>
      cases xs with
      | nil =>
        rw [show printV gap ind (.arr []) = "[]".data from rfl, jsize_arr, jsizeL_nil]
        decide
      | cons x r =>
        rw [jsize_arr] at h ⊢
        have hsl := elems_len N (fun g2 i2 v2 hg2 hs2 => printed_len N g2 i2 v2 hg2 hs2)
          r x gap (ind ++ gap) hgne (by omega)
        have h0 : printV gap ind (.arr (x :: r)) =
            if gap.isEmpty then '[' :: (joinSep [','] (printL gap ind (x :: r)) ++ [']'])
            else '[' :: '\n' ::
              (joinSep [',', '\n'] ((printL gap (ind ++ gap) (x :: r)).map
                (fun piece => ind ++ gap ++ piece)) ++ ('\n' :: ind ++ [']'])) := rfl
        rw [h0, if_neg (by simp [hgne])]
        simp only [List.length_cons, List.length_append]
        have harg : ((printL gap (ind ++ gap) (x :: r)).map (fun piece => ind ++ gap ++ piece)) =
            ((printL gap (ind ++ gap) (x :: r)).map (fun p => (ind ++ gap) ++ p)) := by
          simp [List.append_assoc]
        rw [harg]
        omega
    | obj fs =>
      cases fs with
      | nil =>
        rw [show printV gap ind (.obj []) = "\x7b\x7d".data from rfl, jsize_obj, jsizeF_nil]
        decide
      | cons m r =>
        obtain ⟨k, v⟩ := m
        rw [jsize_obj] at h ⊢
        have hsl := members_len N (fun g2 i2 v2 hg2 hs2 => printed_len N g2 i2 v2 hg2 hs2)
          r k v gap (ind ++ gap) hgne (by omega)
        have h0 : printV gap ind (.obj ((k, v) :: r)) =
            if gap.isEmpty then '\x7b' :: (joinSep [','] (printF gap ind ((k, v) :: r)) ++ ['\x7d'])
            else '\x7b' :: '\n' ::
              (joinSep [',', '\n'] ((printF gap (ind ++ gap) ((k, v) :: r)).map
                (fun piece => ind ++ gap ++ piece)) ++ ('\n' :: ind ++ ['\x7d'])) := rfl
        rw [h0, if_neg (by simp [hgne])]
        simp only [List.length_cons, List.length_append]
        have harg : ((printF gap (ind ++ gap) ((k, v) :: r)).map (fun piece => ind ++ gap ++ piece)) =
            ((printF gap (ind ++ gap) ((k, v) :: r)).map (fun p => (ind ++ gap) ++ p)) := by
          simp [List.append_assoc]
        rw [harg]
        omega

theorem wsOnly_gapChars (indent : Nat) : wsOnly (gapChars indent) = true := by
  simp only [wsOnly, gapChars, List.all_eq_true]
  intro c hc
  rw [List.eq_of_mem_replicate hc]
  decide

theorem gapChars_ne_empty (indent : Nat) (h : 1 ≤ indent) :
    (gapChars indent).isEmpty = false := by
  have hmn : 1 ≤ min indent 10 := by omega
  cases hm : min indent 10 with
  | zero => omega
  | succ n => simp [gapChars, hm, List.replicate]

/-- Pretty-printing with a positive indent and reparsing is the identity
on duplicate-free values. -/
theorem jsonParse_print (v : JSValue) (hu : uniqKeysV v = true) (indent : Nat)
    (hind : 1 ≤ indent) :
    jsonParse (String.mk (printV (gapChars indent) [] v)) = some v := by
  have hf : 2 * jsize v ≤ (String.mk (printV (gapChars indent) [] v)).length + 1 := by
    rw [show (String.mk (printV (gapChars indent) [] v)).length =
        (printV (gapChars indent) [] v).length from rfl]
    exact printed_len (jsize v) _ [] v (gapChars_ne_empty indent hind) le_rfl
  have hmain := (parse_print_fuel ((String.mk (printV (gapChars indent) [] v)).length + 1)).1
    (gapChars indent) [] v [] (wsOnly_gapChars indent) (gapChars_ne_empty indent hind)
    (by rfl) (by rfl) hu hf
  simp only [List.append_nil] at hmain
  simp only [jsonParse]
  rw [hmain]
  rfl

/-- C9: Round-trip -- for every text `T` that parses to a JSON value,
parsing the output of `format(T, {indent: 2})` (sortKeys and
removeWhitespace unset) yields a value structurally equal to the value
obtained by parsing `T` directly. -/
theorem format_roundtrip (T : String) (v : JSValue) (h : jsonParse T = some v) :
    jsonParse (format T (jsonParse T)
      { indent := 2, sortKeys := false, removeWhitespace := false }) = some v := by
  have hu : uniqKeysV v = true := by
    unfold jsonParse at h
    cases hp : parseV (T.length + 1) T.data with
    | none =>
      rw [hp] at h
      exact Option.noConfusion h
    | some p =>
      obtain ⟨v2, r2⟩ := p
      rw [hp] at h
      dsimp only at h
      split at h
      · exact (Option.some.inj h) ▸ (parse_uniq (T.length + 1)).1 T.data v2 r2 hp
      · exact Option.noConfusion h
  rw [h]
  show jsonParse (String.mk (printV (gapChars 2) [] v)) = some v
  exact jsonParse_print v hu 2 (by omega)

/-- Witness for C9: a concrete text with nested structure round-trips
through two-space formatting. -/
theorem format_roundtrip_witness :
    jsonParse (format "[1,  \x7b\"b\":2,\"a\":null\x7d]"
      (jsonParse "[1,  \x7b\"b\":2,\"a\":null\x7d]")
      { indent := 2, sortKeys := false, removeWhitespace := false }) =
      some (.arr [.num 1, .obj [("b", .num 2), ("a", .null)]]) :=
  format_roundtrip "[1,  \x7b\"b\":2,\"a\":null\x7d]"
    (.arr [.num 1, .obj [("b", .num 2), ("a", .null)]]) (by rfl)
